import Mathlib

/-!
# Verification of the golden-harvest ingestion pipeline

Shallow embedding of the RAG ingestion core (`app/rag/tagger.py`,
`app/rag/ingest.py`) of the golden-harvest-AI repository, together with
theorems settling the specification claims about it.

Python strings are modelled as `List Char` (a Python `str` is a sequence of
code points).  The regex character class `\s` is modelled by the ASCII
whitespace characters, which covers every character occurring in the code's
patterns and the inputs of interest.
-/

set_option maxRecDepth 10000

/-- Python strings as lists of code points. -/
abbrev Str := List Char

/-- Abbreviation for turning a Lean string literal into the model type. -/
def toStr (s : String) : Str := s.data

/-- Model of the regex class `\s` (whitespace), restricted to ASCII whitespace;
also the character set stripped by Python's `str.strip()` for the inputs in
scope. -/
def isWs (c : Char) : Bool :=
  c = ' ' || c = '\t' || c = '\n' || c = '\r' || c = '\x0b' || c = '\x0c'

/-- Python `str.strip()`: drop leading and trailing whitespace. -/
def pyStrip (s : Str) : Str :=
  ((s.dropWhile isWs).reverse.dropWhile isWs).reverse

/-- `tagger._normalize`: `(s or "").strip()`. -/
def normalizeStr (s : Str) : Str := pyStrip s

-- -----------------------------
-- Tagger (`app/rag/tagger.py`, `_detect_tags`)
-- -----------------------------

/-- The opening boundary class of the tagger's regex:
`(^|[\s\[\(\{<"'“‘,.;:|/\\-])` (the group's character alternatives). -/
def isOpenBoundary (c : Char) : Bool :=
  isWs c || c = '[' || c = '(' || c = '\x7b' || c = '<' || c = '"' || c = '\'' ||
  c = '“' || c = '‘' || c = ',' || c = '.' || c = ';' || c = ':' || c = '|' ||
  c = '/' || c = '\\' || c = '-'

/-- The closing boundary class of the tagger's regex:
`($|[\s\]\)\}>"'”’,.;:|/\\-])` (the group's character alternatives). -/
def isCloseBoundary (c : Char) : Bool :=
  isWs c || c = ']' || c = ')' || c = '\x7d' || c = '>' || c = '"' || c = '\'' ||
  c = '”' || c = '’' || c = ',' || c = '.' || c = ';' || c = ':' || c = '|' ||
  c = '/' || c = '\\' || c = '-'

/-- One step of `re.search` for the tagger's boundary pattern: does the
(escaped, hence literal) key occur at the head of `s`, with the previous
character (`prev`, `none` at start of string) an opening boundary and the
following character (or end of string) a closing boundary? -/
def boundaryHere (prev : Option Char) (key s : Str) : Bool :=
  (match prev with
   | none => true
   | some c => isOpenBoundary c) &&
  key.isPrefixOf s &&
  (match s.drop key.length with
   | [] => true
   | c :: _ => isCloseBoundary c)

/-- `re.search` over the whole text for the tagger's boundary pattern:
true iff the literal key occurs somewhere in `s` with boundary characters
(or the string ends) on both sides. -/
def boundaryFound (prev : Option Char) (key s : Str) : Bool :=
  boundaryHere prev key s ||
  (match s with
   | [] => false
   | c :: rest => boundaryFound (some c) key rest)

/-- Does one alias `k` of a canonical name match text `t`?  Mirrors the inner
loop of `_detect_tags`: normalize the alias, skip it when empty, then try the
boundary regex and fall back to the plain substring test `key in t`. -/
def aliasMatches (t k : Str) : Bool :=
  let key := normalizeStr k
  !key.isEmpty && (boundaryFound none key t || decide (key <:+: t))

/-- The hit list accumulated by `_detect_tags` before deduplication: for each
`(canonical, keys)` entry in iteration order, the normalized canonical name is
appended when it is non-empty and some alias matches. -/
def tagHits (t : Str) : List (Str × List Str) → List Str
  | [] => []
  | (c, keys) :: rest =>
    let name := normalizeStr c
    if name.isEmpty then tagHits t rest
    else if keys.any (fun k => aliasMatches t k) then name :: tagHits t rest
    else tagHits t rest

/-- Helper for `dedupFirst`: drop the elements already seen. -/
def dedupSeen (seen : List Str) : List Str → List Str
  | [] => []
  | x :: xs => if x ∈ seen then dedupSeen seen xs else x :: dedupSeen (x :: seen) xs

/-- `list(dict.fromkeys(hits))`: deduplicate keeping first occurrences. -/
def dedupFirst (l : List Str) : List Str := dedupSeen [] l

/-- `tagger._detect_tags`: the canonical names whose alias lists match the
text, in alias-table iteration order, deduplicated. -/
def detect_tags (t : Str) (aliases : List (Str × List Str)) : List Str :=
  dedupFirst (tagHits t aliases)

/-- `tagger.detect_item_tags` (delegates to `_detect_tags`). -/
def detect_item_tags (t : Str) (itemAliases : List (Str × List Str)) : List Str :=
  detect_tags t itemAliases

/-- `tagger.detect_variety_tags` (delegates to `_detect_tags`). -/
def detect_variety_tags (t : Str) (varietyAliases : List (Str × List Str)) : List Str :=
  detect_tags t varietyAliases

-- -----------------------------
-- Segmenter (`app/rag/ingest.py`: `_HEADING_RE`, `split_by_headings`)
-- -----------------------------

/-- Length of the maximal prefix of `s` whose characters satisfy `p`
(the number of characters a greedy `p*` consumes). -/
def countWhile (p : Char → Bool) : Str → Nat
  | [] => 0
  | c :: cs => if p c then countWhile p cs + 1 else 0

/-- The characters of the regex class `[IVX]` (the Roman-numeral enumerator). -/
def isRoman (c : Char) : Bool := c = 'I' || c = 'V' || c = 'X'

/-- The fixed marker glyphs of `_HEADING_RE` (`■`, `▶`, `○`, `◇`). -/
def isGlyph (c : Char) : Bool := c = '■' || c = '▶' || c = '○' || c = '◇'

/-- Matched length of an enumerator alternative `p+\.\s+` (`p` is `\d` or
`[IVX]`): a non-empty maximal run of `p`, a dot, then at least one whitespace
character (again maximal, as the following `\S` forbids backtracking). -/
def enumLen (p : Char → Bool) (rest : Str) : Option Nat :=
  let d := countWhile p rest
  if d = 0 then none
  else match rest.drop d with
    | '.' :: tail =>
      let w := countWhile isWs tail
      if w = 0 then none else some (d + 1 + w)
    | _ => none

/-- Matched length of a glyph alternative `g\s+`: the glyph, then at least one
whitespace character. -/
def glyphLen (rest : Str) : Option Nat :=
  match rest with
  | _ :: tail =>
    let w := countWhile isWs tail
    if w = 0 then none else some (1 + w)
  | [] => none

/-- Can `inner` be split as `\s*` ++ (non-empty, newline-free) ++ `\s*`,
i.e. matched by the group `\s*.+?\s*` of the bracket alternative?  Such a
split exists exactly when `inner` has a character other than `\n` and the
stretch between its first and last non-whitespace characters (its strip)
contains no newline. -/
def innerOK (inner : Str) : Bool :=
  inner.any (fun c => c ≠ '\n') && !(pyStrip inner).contains '\n'

/-- Index of the closing bracket on which the lazy engine settles for the
alternative `\[\s*.+?\s*\]` followed by `\S`: the first index `k ≥ 1` of
`rest` holding `]` such that the bracket content `rest[1:k]` admits the lazy
decomposition and a non-whitespace character follows the bracket. -/
def bracketClose (rest : Str) : Option Nat :=
  (List.range rest.length).find? (fun k =>
    decide (1 ≤ k) &&
    decide (rest.getD k ' ' = ']') &&
    innerOK ((rest.drop 1).take (k - 1)) &&
    (match rest.drop (k + 1) with
     | [] => false
     | c :: _ => !isWs c))

/-- Matched length of the marker alternation
`(?:\d+\.\s+|[IVX]+\.\s+|■\s+|▶\s+|○\s+|◇\s+|\[\s*.+?\s*\])` at the head of
`rest`.  The alternatives have pairwise distinct first characters, so the
head character selects the branch. -/
def markerLen (rest : Str) : Option Nat :=
  match rest with
  | [] => none
  | c :: _ =>
    if c.isDigit then enumLen Char.isDigit rest
    else if isRoman c then enumLen isRoman rest
    else if isGlyph c then glyphLen rest
    else if c = '[' then (bracketClose rest).map (· + 1)
    else none

/-- Number of characters the trailing `.*` consumes (up to just before the
next newline or the end of the string; `$` is zero-width). -/
def restOfLineLen (s : Str) : Nat := countWhile (fun c => c ≠ '\n') s

/-- Total length of a match of `_HEADING_RE` starting at a position where the
multiline anchor `^` holds, or `none` when the pattern does not match there.
The pattern is
`(^\s*(?:\d+\.\s+|[IVX]+\.\s+|■\s+|▶\s+|○\s+|◇\s+|\[\s*.+?\s*\])\S.*$)` with
`re.MULTILINE`; the classes `\s`/`\d` are modelled by ASCII whitespace and
digits. -/
def headingMatchLen (s : Str) : Option Nat :=
  let w := countWhile isWs s
  let rest := s.drop w
  match markerLen rest with
  | none => none
  | some m =>
    match rest.drop m with
    | [] => none
    | c :: cs => if isWs c then none else some (w + m + 1 + restOfLineLen cs)

/-- `_HEADING_RE` classifies a standalone line (matched at its start, where
`^` holds). -/
def lineIsHeading (l : Str) : Bool := (headingMatchLen l).isSome

/-- `re.finditer` for `_HEADING_RE` over the page text: the `(start, end)`
positions of the non-overlapping matches, scanning left to right and
restarting after each match; `^` holds at position 0 and right after every
newline.  `fuel` bounds the recursion; every step consumes at least one
character, so the wrapper's `length + 1` always suffices. -/
def findFrom (fuel : Nat) (als : Bool) (pos : Nat) (s : Str) : List (Nat × Nat) :=
  match fuel with
  | 0 => []
  | fuel + 1 =>
    match s with
    | [] => []
    | c :: rest =>
      if als then
        match headingMatchLen (c :: rest) with
        | some len =>
          (pos, pos + len) ::
            findFrom fuel ((c :: rest).getD (len - 1) ' ' == '\n')
              (pos + len) ((c :: rest).drop len)
        | none => findFrom fuel (c == '\n') (pos + 1) rest
      else findFrom fuel (c == '\n') (pos + 1) rest

/-- All heading matches of the page text (`list(_HEADING_RE.finditer(text))`). -/
def findMatches (text : Str) : List (Nat × Nat) :=
  findFrom (text.length + 1) true 0 text

/-- The Python slice operation `text[i:j]`. -/
def pySlice (text : Str) (i j : Nat) : Str := (text.drop i).take (j - i)

/-- The loop of `split_by_headings`: each match yields the section
`(title, body)` where the title is the stripped match text (`m.group(1)` is
the whole match) and the body is the stripped text from the match start to
the next match start (or the end of the text). -/
def sectionsOf (text : Str) : List (Nat × Nat) → List (Str × Str)
  | [] => []
  | (s1, e1) :: rest =>
    let endPos := match rest with
      | [] => text.length
      | (s2, _) :: _ => s2
    (pyStrip (pySlice text s1 e1), pyStrip (pySlice text s1 endPos)) ::
      sectionsOf text rest

/-- `ingest.split_by_headings`: no match yields the single section
`("", text)`; otherwise one section per match. -/
def split_by_headings (text : Str) : List (Str × Str) :=
  let ms := findMatches text
  if ms.isEmpty then [([], text)] else sectionsOf text ms

-- -----------------------------
-- Chunker (`app/rag/ingest.py`, `build_chunks_from_pages`)
-- -----------------------------

/-- A page document produced by the external PDF loader (`PyPDFLoader`): its
text and the page number from its metadata (`metadata.get("page", None)`). -/
structure Page where
  content : Str
  pageNum : Option Nat
deriving DecidableEq, Repr

/-- A chunk document with the metadata attached by `build_chunks_from_pages`
and by the orchestrator's tagging loop.  `chunkId` holds `str(idx)`. -/
structure Chunk where
  content : Str
  page : Option Nat
  sectionTitle : Str
  chunkId : String := ""
  docCategory : String := ""
  period : String := ""
  source : String := ""
  fileName : String := ""
  fileHash : String := ""
  docId : String := ""
  ingestedAt : String := ""
  itemTags : List Str := []
  varietyTags : List Str := []
deriving DecidableEq, Repr

/-- The per-section work of `build_chunks_from_pages`: truncate the section
body to 8000 characters, hand it to the recursive splitter (the configured
`RecursiveCharacterTextSplitter`, an external collaborator modelled as the
oracle `split`, which may raise), and attach the page metadata and the
section title to each resulting span. -/
def chunksOfSection (split : Str → Except String (List Str)) (p : Page)
    (sec : Str × Str) : Except String (List Chunk) := do
  let body := if sec.2.length > 8000 then sec.2.take 8000 else sec.2
  let subs ← split body
  return subs.map (fun s => { content := s, page := p.pageNum, sectionTitle := sec.1 })

/-- The section loop of `build_chunks_from_pages` over one page. -/
def chunksOfSections (split : Str → Except String (List Str)) (p : Page) :
    List (Str × Str) → Except String (List Chunk)
  | [] => .ok []
  | sec :: rest => do
    let cs ← chunksOfSection split p sec
    let more ← chunksOfSections split p rest
    return cs ++ more

/-- The per-page work of `build_chunks_from_pages`: blank pages (after
stripping) are skipped; otherwise the stripped text is segmented and each
section chunked. -/
def chunksOfPage (split : Str → Except String (List Str)) (p : Page) :
    Except String (List Chunk) :=
  let pageText := pyStrip p.content
  if pageText.isEmpty then .ok []
  else chunksOfSections split p (split_by_headings pageText)

/-- The page loop of `build_chunks_from_pages`. -/
def chunksOfPages (split : Str → Except String (List Str)) :
    List Page → Except String (List Chunk)
  | [] => .ok []
  | p :: rest => do
    let cs ← chunksOfPage split p
    let more ← chunksOfPages split rest
    return cs ++ more

/-- `ingest.build_chunks_from_pages`: gather the spans of all sections of all
non-blank pages in order, then assign `chunk_id = str(idx)` by enumeration
over the final list. -/
def build_chunks_from_pages (split : Str → Except String (List Str))
    (raw : List Page) : Except String (List Chunk) := do
  let cs ← chunksOfPages split raw
  return cs.enum.map (fun ci => { ci.2 with chunkId := toString ci.1 })

-- -----------------------------
-- Registry Store (`app/rag/ingest.py`: `registry_exists`, `registry_upsert_*`)
-- -----------------------------

/-- One row of `rag_ingestion_registry`; the table's primary key is
`(collection_name, file_hash)`. -/
structure RegEntry where
  collectionName : String
  fileHash : String
  fileName : String
  category : Option String
  period : Option String
  source : Option String
  status : String
  error : Option String
deriving DecidableEq, Repr

/-- The registry table.  The primary key keeps at most one row per
`(collection_name, file_hash)`; the upserts below preserve that by replacing
the key's rows wholesale. -/
abbrev Registry := List RegEntry

/-- `ingest.registry_exists`: `SELECT 1 FROM rag_ingestion_registry WHERE
collection_name=%s AND file_hash=%s AND status='SUCCESS' LIMIT 1` — true iff
a SUCCESS row exists for the key. -/
def registry_exists (reg : Registry) (collectionName fileHash : String) : Bool :=
  reg.any (fun e => e.collectionName == collectionName && e.fileHash == fileHash &&
    e.status == "SUCCESS")

/-- Does a row belong to the composite key `(collectionName, fileHash)`? -/
def keyMatches (collectionName fileHash : String) (o : RegEntry) : Bool :=
  o.collectionName == collectionName && o.fileHash == fileHash

/-- The SQL upsert `INSERT ... ON CONFLICT (collection_name, file_hash) DO
UPDATE`: replace the key's row, or insert one. -/
def upsertRow (reg : Registry) (e : RegEntry) : Registry :=
  reg.filter (fun o => !keyMatches e.collectionName e.fileHash o) ++ [e]

/-- `ingest.registry_upsert_success`: status SUCCESS, error cleared. -/
def registry_upsert_success (reg : Registry)
    (collectionName fileName fileHash : String)
    (category period source : Option String) : Registry :=
  upsertRow reg
    { collectionName, fileHash, fileName, category, period, source,
      status := "SUCCESS", error := none }

/-- `ingest.registry_upsert_failed`: status FAILED, error recorded. -/
def registry_upsert_failed (reg : Registry)
    (collectionName fileName fileHash : String)
    (category period source : Option String) (error : String) : Registry :=
  upsertRow reg
    { collectionName, fileHash, fileName, category, period, source,
      status := "FAILED", error := some error }

-- -----------------------------
-- Ingestion Orchestrator (`app/rag/ingest.py`, `ingest_pdf_report`)
-- -----------------------------

/-- Python's `x or default` for an optional string: `None` and `""` are falsy. -/
def pyOr (o : Option String) (default : String) : String :=
  match o with
  | none => default
  | some s => if s = "" then default else s

/-- The calls the orchestrator makes on its collaborators, in order:
`delete_vectors_by_doc_id`, `PGVector.from_documents` (the bulk write), and
the two registry upserts. -/
inductive Event where
  | deleteByDocId (collectionName docId : String)
  | bulkWrite (collectionName : String) (chunks : List Chunk)
  | upsertSuccess (collectionName fileName fileHash : String)
  | upsertFailed (collectionName fileName fileHash : String) (error : String)
deriving DecidableEq, Repr

/-- The structured outcome dictionary of `ingest_pdf_report` (keys absent
from a given outcome are `none`). -/
structure IngestResult where
  status : String
  fileName : String
  fileHash : String
  reason : Option String := none
  pages : Option Nat := none
  chunks : Option Nat := none
  taggedItemChunks : Option Nat := none
  taggedVarietyChunks : Option Nat := none
  collectionName : Option String := none
  error : Option String := none
deriving DecidableEq, Repr

/-- One ingestion attempt's inputs and collaborator behaviour: the computed
file name and content hash, the call arguments, the outcome of each fallible
collaborator call (the forced delete, page loading, the text splitter, and
the bulk vector write; `.error e` models a raised exception with message
`e`), the alias tables the loader returned, and the timestamp. -/
structure IngestEnv where
  fileName : String
  fileHash : String
  category : Option String
  reportDate : Option String
  source : String
  collectionName : String
  force : Bool
  deleteOutcome : Except String Unit
  loadOutcome : Except String (List Page)
  split : Str → Except String (List Str)
  itemAliases : List (Str × List Str)
  varietyAliases : List (Str × List Str)
  writeOutcome : Except String Unit
  ingestedAt : String

/-- The metadata attached to every chunk by the tagging loop of
`ingest_pdf_report`. -/
def attachMeta (env : IngestEnv) (c : Chunk) : Chunk :=
  { c with
    docCategory := pyOr env.category "농업관측"
    period := pyOr env.reportDate "날짜미상"
    source := env.source
    fileName := env.fileName
    fileHash := env.fileHash
    docId := env.fileHash
    ingestedAt := env.ingestedAt
    itemTags := detect_item_tags c.content env.itemAliases
    varietyTags := detect_variety_tags c.content env.varietyAliases }

/-- The body of the orchestrator's `try` block (after the dedup gate): the
forced delete when `force` is set, page loading, chunk building, the
tagging/metadata loop, and the at-most-one bulk write (made only for a
non-empty chunk list).  Returns the ordered collaborator calls made, and
either the loaded pages with the final chunk list or the first exception's
message. -/
def tryBody (env : IngestEnv) : List Event × Except String (List Page × List Chunk) :=
  let ev0 : List Event :=
    if env.force then [Event.deleteByDocId env.collectionName env.fileHash] else []
  match (if env.force then env.deleteOutcome else .ok ()) with
  | .error e => (ev0, .error e)
  | .ok () =>
    match env.loadOutcome with
    | .error e => (ev0, .error e)
    | .ok pages =>
      match build_chunks_from_pages env.split pages with
      | .error e => (ev0, .error e)
      | .ok splits =>
        let tagged := splits.map (attachMeta env)
        if tagged.isEmpty then (ev0, .ok (pages, tagged))
        else
          let ev1 := ev0 ++ [Event.bulkWrite env.collectionName tagged]
          match env.writeOutcome with
          | .error e => (ev1, .error e)
          | .ok () => (ev1, .ok (pages, tagged))

/-- `ingest.ingest_pdf_report`: the dedup gate, then the `try` body with its
`except` handler.  Returns the structured outcome (never an exception), the
updated registry, and the ordered collaborator calls. -/
def ingest_pdf_report (env : IngestEnv) (reg : Registry) :
    IngestResult × Registry × List Event :=
  if !env.force && registry_exists reg env.collectionName env.fileHash then
    ({ status := "SKIPPED", fileName := env.fileName, fileHash := env.fileHash,
       reason := some "already_ingested" }, reg, [])
  else
    match tryBody env with
    | (evs, .error e) =>
      ({ status := "FAILED", fileName := env.fileName, fileHash := env.fileHash,
         error := some e },
       registry_upsert_failed reg env.collectionName env.fileName env.fileHash
         env.category env.reportDate (some env.source) e,
       evs ++ [Event.upsertFailed env.collectionName env.fileName env.fileHash e])
    | (evs, .ok (pages, tagged)) =>
      ({ status := "SUCCESS", fileName := env.fileName, fileHash := env.fileHash,
         pages := some pages.length, chunks := some tagged.length,
         taggedItemChunks := some ((tagged.filter (fun d => !d.itemTags.isEmpty)).length),
         taggedVarietyChunks := some ((tagged.filter (fun d => !d.varietyTags.isEmpty)).length),
         collectionName := some env.collectionName },
       registry_upsert_success reg env.collectionName env.fileName env.fileHash
         env.category env.reportDate (some env.source),
       evs ++ [Event.upsertSuccess env.collectionName env.fileName env.fileHash])

-- -----------------------------
-- Alias Table Loader (`app/rag/tagger.py`, `load_item_and_variety_aliases_async`)
-- -----------------------------

/-- A parsed JSON value as `_load_aliases_from_env_json` inspects it: a list
of strings, a single string, or anything else (silently skipped).  A raw env
value that makes the function return `{}` (missing/blank env variable,
unparsable JSON, or any exception such as a list member that is not a
string) is modelled by passing `none` for the whole mapping. -/
inductive JVal where
  | arr (xs : List Str)
  | str (s : Str)
  | other
deriving DecidableEq, Repr

/-- Python `dict` insertion `d[k] = v`: overwrite in place (keeping the key's
original position) or append. -/
def dictInsert (d : List (Str × List Str)) (k : Str) (v : List Str) :
    List (Str × List Str) :=
  if d.any (fun p => p.1 == k) then d.map (fun p => if p.1 == k then (k, v) else p)
  else d ++ [(k, v)]

/-- `tagger._load_aliases_from_env_json`: normalize keys and values, skip
empty keys, keep list values as their non-empty normalized members (skipping
the key when none survive) and string values as a singleton. -/
def load_aliases_from_env_json (raw : Option (List (Str × JVal))) :
    List (Str × List Str) :=
  match raw with
  | none => []
  | some entries =>
    entries.foldl (fun out kv =>
      let key := normalizeStr kv.1
      if key.isEmpty then out
      else match kv.2 with
        | .arr xs =>
          let arr := (xs.map normalizeStr).filter (fun x => !x.isEmpty)
          if arr.isEmpty then out else dictInsert out key arr
        | .str s =>
          if (normalizeStr s).isEmpty then out else dictInsert out key [normalizeStr s]
        | .other => out) []

/-- Python `str.split(sep)` for a single separator character. -/
def splitOnChar (sep : Char) : Str → List Str
  | [] => [[]]
  | c :: rest =>
    match splitOnChar sep rest with
    | [] => if c == sep then [[], []] else [[c]]
    | h :: t => if c == sep then [] :: h :: t else (c :: h) :: t

/-- `tagger._load_aliases_from_env_list`: strip the raw env string, split it
on commas, normalize and drop empties; each surviving name becomes its own
sole alias (`{n: [n] for n in names}`, whose keys keep first positions). -/
def load_aliases_from_env_list (raw : Str) : List (Str × List Str) :=
  let raw' := pyStrip raw
  if raw'.isEmpty then []
  else
    let names := ((splitOnChar ',' raw').map normalizeStr).filter (fun x => !x.isEmpty)
    (dedupFirst names).map (fun n => (n, [n]))

/-- `tagger._fetch_names`: stringify the first column, strip, drop empties,
deduplicate keeping first occurrences (`list(dict.fromkeys(out))`).  A `none`
row models a row whose first column is NULL (or an empty row). -/
def fetchNames (rows : List (Option Str)) : List Str :=
  dedupFirst (((rows.filterMap id).map normalizeStr).filter (fun s => !s.isEmpty))

/-- `{n: [n] for n in names}`: each canonical name is its own sole alias. -/
def selfAliases (names : List Str) : List (Str × List Str) :=
  names.map (fun n => (n, [n]))

/-- The built-in default item alias table (step 4 of the loader). -/
def defaultItemAliases : List (Str × List Str) :=
  [(toStr "사과", [toStr "사과", toStr "부사", toStr "홍로", toStr "후지"]),
   (toStr "배", [toStr "배", toStr "신고"]),
   (toStr "포도", [toStr "포도", toStr "샤인머스캣", toStr "캠벨", toStr "캠벨얼리"]),
   (toStr "감귤", [toStr "감귤", toStr "귤", toStr "온주"]),
   (toStr "딸기", [toStr "딸기"])]

/-- The built-in default variety alias table (step 4 of the loader). -/
def defaultVarietyAliases : List (Str × List Str) :=
  [(toStr "홍로", [toStr "홍로"]),
   (toStr "부사", [toStr "부사", toStr "후지"]),
   (toStr "샤인머스캣", [toStr "샤인머스캣", toStr "샤인 머스캣"]),
   (toStr "캠벨", [toStr "캠벨", toStr "캠벨얼리"]),
   (toStr "신고", [toStr "신고"]),
   (toStr "온주", [toStr "온주"])]

/-- Inputs of one alias-table load: the two structured env JSON mappings
(`none` when the loader would return `{}`), the two flat env list strings,
and the two master-data query outcomes (`.error` models a raised exception;
each row carries the first column, `none` for NULL). -/
structure AliasEnv where
  itemJson : Option (List (Str × JVal))
  varietyJson : Option (List (Str × JVal))
  itemNamesRaw : Str
  varietyNamesRaw : Str
  dbItemRows : Except Unit (List (Option Str))
  dbVarietyRows : Except Unit (List (Option Str))

/-- The master-data step of the loader.  Both queries run inside one `try`
whose handler is `pass`: an exception from the items query abandons the whole
step, skipping the varieties query as well. -/
def dbStep (env : AliasEnv) (item2 var2 : List (Str × List Str)) :
    List (Str × List Str) × List (Str × List Str) :=
  if item2.isEmpty then
    match env.dbItemRows with
    | .error _ => (item2, var2)
    | .ok rows =>
      let items := fetchNames rows
      let item3 := if items.isEmpty then item2 else selfAliases items
      if var2.isEmpty then
        match env.dbVarietyRows with
        | .error _ => (item3, var2)
        | .ok vrows =>
          let vs := fetchNames vrows
          (item3, if vs.isEmpty then var2 else selfAliases vs)
      else (item3, var2)
  else if var2.isEmpty then
    match env.dbVarietyRows with
    | .error _ => (item2, var2)
    | .ok vrows =>
      let vs := fetchNames vrows
      (item2, if vs.isEmpty then var2 else selfAliases vs)
  else (item2, var2)

/-- `tagger.load_item_and_variety_aliases_async`: env JSON, then env list,
then master data (one shared `try`), then the built-in defaults. -/
def load_item_and_variety_aliases (env : AliasEnv) :
    List (Str × List Str) × List (Str × List Str) :=
  let item1 := load_aliases_from_env_json env.itemJson
  let var1 := load_aliases_from_env_json env.varietyJson
  if !item1.isEmpty && !var1.isEmpty then (item1, var1)
  else
    let item2 := if item1.isEmpty then load_aliases_from_env_list env.itemNamesRaw else item1
    let var2 := if var1.isEmpty then load_aliases_from_env_list env.varietyNamesRaw else var1
    if !item2.isEmpty && !var2.isEmpty then (item2, var2)
    else
      let p := dbStep env item2 var2
      (if p.1.isEmpty then defaultItemAliases else p.1,
       if p.2.isEmpty then defaultVarietyAliases else p.2)

/-- Is an event a `delete_vectors_by_doc_id` call? -/
def isDeleteEvent : Event → Bool
  | .deleteByDocId _ _ => true
  | _ => false

/-- Is an event the bulk vector write (`PGVector.from_documents`)? -/
def isWriteEvent : Event → Bool
  | .bulkWrite _ _ => true
  | _ => false

-- Spec-side shape of a heading line (for the C8 equivalence) ---------------

/-- The shapes of strings matched by the marker alternation of `_HEADING_RE`:
an enumerator (digits or Roman numerals, a dot, whitespace), a marker glyph
followed by whitespace, or a bracket-delimited label (whose content is
optional whitespace, a non-empty newline-free core, optional whitespace). -/
inductive MarkerShape : Str → Prop
  | digits (ds ws : Str) : ds ≠ [] → (∀ c ∈ ds, c.isDigit = true) →
      ws ≠ [] → (∀ c ∈ ws, isWs c = true) → MarkerShape (ds ++ '.' :: ws)
  | roman (rs ws : Str) : rs ≠ [] → (∀ c ∈ rs, isRoman c = true) →
      ws ≠ [] → (∀ c ∈ ws, isWs c = true) → MarkerShape (rs ++ '.' :: ws)
  | glyph (g : Char) (ws : Str) : isGlyph g = true →
      ws ≠ [] → (∀ c ∈ ws, isWs c = true) → MarkerShape (g :: ws)
  | bracket (A B C : Str) : (∀ c ∈ A, isWs c = true) → B ≠ [] →
      (∀ c ∈ B, c ≠ '\n') → (∀ c ∈ C, isWs c = true) →
      MarkerShape ('[' :: (A ++ B ++ C) ++ [']'])

/-- A line is heading-shaped when it is optional leading whitespace, a
marker, then immediately a non-whitespace character and arbitrary content. -/
def HeadingShape (l : Str) : Prop :=
  ∃ lead marker c rest, l = lead ++ marker ++ c :: rest ∧
    (∀ x ∈ lead, isWs x = true) ∧ MarkerShape marker ∧ isWs c = false

-- Spec-side definitions for the C9 refinement ------------------------------

/-- Modelled from the spec's words (C9): the items mapping is the first
non-empty source among env JSON, env list, master data (each name its own
sole alias; an exception makes the source empty), and the default table —
resolved independently of the variety configuration. -/
def specItemAliases (env : AliasEnv) : List (Str × List Str) :=
  let j := load_aliases_from_env_json env.itemJson
  if !j.isEmpty then j
  else
    let l := load_aliases_from_env_list env.itemNamesRaw
    if !l.isEmpty then l
    else
      let d := match env.dbItemRows with
        | .error _ => []
        | .ok rows => selfAliases (fetchNames rows)
      if !d.isEmpty then d else defaultItemAliases

/-- Modelled from the spec's words as amended (C9): the varieties mapping is
the first non-empty source in the same order, except that the master-data
source is unavailable whenever the items side also needed the master data and
its query raised — both queries share one `try`. -/
def specVarietyAliases (env : AliasEnv) : List (Str × List Str) :=
  let j := load_aliases_from_env_json env.varietyJson
  if !j.isEmpty then j
  else
    let l := load_aliases_from_env_list env.varietyNamesRaw
    if !l.isEmpty then l
    else
      let itemsBlockDb :=
        (load_aliases_from_env_json env.itemJson).isEmpty &&
        (load_aliases_from_env_list env.itemNamesRaw).isEmpty &&
        (match env.dbItemRows with | .error _ => true | .ok _ => false)
      let d := if itemsBlockDb then []
        else match env.dbVarietyRows with
          | .error _ => []
          | .ok rows => selfAliases (fetchNames rows)
      if !d.isEmpty then d else defaultVarietyAliases

-- Concrete environments used by witness theorems --------------------------

/-- A concrete ingestion environment for witnesses: one page, an identity
splitter, every collaborator call succeeding, `force` off. -/
def sampleEnv : IngestEnv :=
  { fileName := "report.pdf", fileHash := "h1", category := none,
    reportDate := none, source := "KREI_관측월보",
    collectionName := "agri_reports", force := false,
    deleteOutcome := .ok (),
    loadOutcome := .ok [{ content := toStr "국산 후지 가격 상승", pageNum := some 0 }],
    split := fun s => .ok [s],
    itemAliases := [(toStr "사과", [toStr "사과", toStr "후지"])],
    varietyAliases := [(toStr "부사", [toStr "부사", toStr "후지"])],
    writeOutcome := .ok (), ingestedAt := "2025-01-01T00:00:00" }

/-- A registry already holding a SUCCESS row for `sampleEnv`'s key. -/
def regWithSuccess : Registry :=
  [{ collectionName := "agri_reports", fileHash := "h1", fileName := "report.pdf",
     category := none, period := none, source := some "KREI_관측월보",
     status := "SUCCESS", error := none }]

/-- An alias-loader input where every configuration source is empty, the
items master-data query raises, and the varieties master-data query would
succeed with one name. -/
def aliasEnvDbItemFails : AliasEnv :=
  { itemJson := none, varietyJson := none, itemNamesRaw := [], varietyNamesRaw := [],
    dbItemRows := .error (), dbVarietyRows := .ok [some (toStr "신고")] }

/-- `sampleEnv`, forced, loading one empty page and one whitespace page. -/
def blankPagesEnv : IngestEnv :=
  { sampleEnv with
    force := true
    loadOutcome := Except.ok
      [{ content := [], pageNum := some 0 },
       { content := toStr "  \n ", pageNum := some 1 }] }

-- Basic lemmas about the tagger -------------------------------------------

theorem boundaryFound_occurs {prev : Option Char} {key s : Str}
    (h : boundaryFound prev key s = true) : key <:+: s := by
  induction s generalizing prev with
  | nil =>
    rw [boundaryFound] at h
    simp only [Bool.or_false] at h
    simp only [boundaryHere, Bool.and_eq_true] at h
    obtain ⟨⟨-, hpre⟩, -⟩ := h
    exact (List.isPrefixOf_iff_prefix.mp hpre).isInfix
  | cons c rest ih =>
    rw [boundaryFound] at h
    rcases Bool.or_eq_true _ _ |>.mp h with h1 | h2
    · simp only [boundaryHere, Bool.and_eq_true] at h1
      obtain ⟨⟨-, hpre⟩, -⟩ := h1
      exact (List.isPrefixOf_iff_prefix.mp hpre).isInfix
    · exact List.infix_cons (ih h2)

theorem aliasMatches_iff_occurs (t k : Str) :
    aliasMatches t k = true ↔ (normalizeStr k ≠ [] ∧ normalizeStr k <:+: t) := by
  unfold aliasMatches
  constructor
  · intro h
    simp only [Bool.and_eq_true, Bool.or_eq_true, Bool.not_eq_true',
      decide_eq_true_eq] at h
    obtain ⟨hne, hor⟩ := h
    refine ⟨fun hk => by simp [hk, List.isEmpty_iff] at hne, ?_⟩
    rcases hor with hb | hi
    · exact boundaryFound_occurs hb
    · exact hi
  · intro ⟨hne, hi⟩
    simp only [Bool.and_eq_true, Bool.or_eq_true, Bool.not_eq_true',
      decide_eq_true_eq]
    exact ⟨by simpa [List.isEmpty_iff] using hne, Or.inr hi⟩

theorem mem_dedupSeen {a : Str} :
    ∀ {l seen : List Str}, a ∈ dedupSeen seen l ↔ (a ∈ l ∧ a ∉ seen) := by
  intro l
  induction l with
  | nil => simp [dedupSeen]
  | cons x xs ih =>
    intro seen
    rw [dedupSeen]
    by_cases hx : x ∈ seen
    · rw [if_pos hx, ih]
      constructor
      · rintro ⟨h1, h2⟩
        exact ⟨List.mem_cons_of_mem x h1, h2⟩
      · rintro ⟨h1, h2⟩
        rcases List.mem_cons.mp h1 with rfl | h1
        · exact absurd hx h2
        · exact ⟨h1, h2⟩
    · rw [if_neg hx]
      constructor
      · intro h
        rcases List.mem_cons.mp h with rfl | h
        · exact ⟨List.mem_cons_self a xs, hx⟩
        · obtain ⟨h1, h2⟩ := ih.mp h
          exact ⟨List.mem_cons_of_mem x h1,
            fun hs => h2 (List.mem_cons_of_mem x hs)⟩
      · rintro ⟨h1, h2⟩
        rcases List.mem_cons.mp h1 with rfl | h1
        · exact List.mem_cons_self a _
        · by_cases hax : a = x
          · exact hax ▸ List.mem_cons_self x _
          · exact List.mem_cons_of_mem x (ih.mpr ⟨h1, by
              intro hs
              rcases List.mem_cons.mp hs with h | h
              · exact hax h
              · exact h2 h⟩)

theorem mem_dedupFirst {a : Str} {l : List Str} : a ∈ dedupFirst l ↔ a ∈ l := by
  unfold dedupFirst
  rw [mem_dedupSeen]
  simp

theorem mem_tagHits {a t : Str} {aliases : List (Str × List Str)} :
    a ∈ tagHits t aliases ↔
      ∃ p ∈ aliases, normalizeStr p.1 = a ∧ a ≠ [] ∧
        ∃ k ∈ p.2, normalizeStr k ≠ [] ∧ normalizeStr k <:+: t := by
  induction aliases with
  | nil => simp [tagHits]
  | cons p rest ih =>
    obtain ⟨c, keys⟩ := p
    rw [tagHits]
    cases hname : (normalizeStr c).isEmpty with
    | true =>
      rw [if_pos rfl, ih]
      constructor
      · rintro ⟨q, hq, rest'⟩
        exact ⟨q, List.mem_cons_of_mem _ hq, rest'⟩
      · rintro ⟨q, hq, hn, hne, hk⟩
        rcases List.mem_cons.mp hq with rfl | hq
        · exfalso
          apply hne
          rw [← hn]
          exact List.isEmpty_iff.mp hname
        · exact ⟨q, hq, hn, hne, hk⟩
    | false =>
      rw [if_neg (by simp)]
      cases hmatch : keys.any (fun k => aliasMatches t k) with
      | true =>
        rw [if_pos rfl]
        simp only [List.mem_cons]
        constructor
        · rintro (rfl | h)
          · rcases List.any_eq_true.mp hmatch with ⟨k, hk, hkm⟩
            obtain ⟨hkne, hinf⟩ := (aliasMatches_iff_occurs t k).mp hkm
            exact ⟨(c, keys), Or.inl rfl, rfl,
              fun hh => by rw [hh] at hname; simp at hname,
              k, hk, hkne, hinf⟩
          · obtain ⟨q, hq, rest'⟩ := ih.mp h
            exact ⟨q, Or.inr hq, rest'⟩
        · rintro ⟨q, hq, hn, hne, hk⟩
          rcases hq with rfl | hq
          · exact Or.inl hn.symm
          · exact Or.inr (ih.mpr ⟨q, hq, hn, hne, hk⟩)
      | false =>
        rw [if_neg (by simp), ih]
        constructor
        · rintro ⟨q, hq, rest'⟩
          exact ⟨q, List.mem_cons_of_mem _ hq, rest'⟩
        · rintro ⟨q, hq, hn, hne, ⟨k, hk, hkne, hinf⟩⟩
          rcases List.mem_cons.mp hq with rfl | hq
          · exact absurd (List.any_eq_true.mpr
              ⟨k, hk, (aliasMatches_iff_occurs t k).mpr ⟨hkne, hinf⟩⟩)
              (by simp [hmatch])
          · exact ⟨q, hq, hn, hne, k, hk, hkne, hinf⟩

theorem mem_detect_tags {a t : Str} {aliases : List (Str × List Str)} :
    a ∈ detect_tags t aliases ↔
      ∃ p ∈ aliases, normalizeStr p.1 = a ∧ a ≠ [] ∧
        ∃ k ∈ p.2, normalizeStr k ≠ [] ∧ normalizeStr k <:+: t := by
  unfold detect_tags
  rw [mem_dedupFirst, mem_tagHits]



/-- The strip of a string is one of its infixes: `dropWhile` keeps a suffix,
and the reversed second `dropWhile` keeps a prefix of that suffix. -/
theorem pyStrip_sublistOf (s : Str) : pyStrip s <:+: s := by
  unfold pyStrip
  have h1 : s.dropWhile isWs <:+ s := List.dropWhile_suffix isWs
  have h2 : ((s.dropWhile isWs).reverse.dropWhile isWs).reverse <+: s.dropWhile isWs := by
    rw [← List.reverse_suffix]
    simpa using List.dropWhile_suffix (l := (s.dropWhile isWs).reverse) isWs
  exact h2.isInfix.trans h1.isInfix

/-- **C10.**  Plain substring occurrence of an alias is sufficient for
tagging: whenever an alias `k` of a canonical name `c` occurs anywhere in the
text as a contiguous substring — boundary or no boundary — and neither
normalizes to the empty string, `_detect_tags` includes the normalized
canonical name in its output (the inner loop falls back to `key in t` after
the boundary regex). -/
theorem c10_substring_occurrence_suffices_for_tagging
    (t : Str) (aliases : List (Str × List Str)) (c : Str) (keys : List Str)
    (k : Str) (hmem : (c, keys) ∈ aliases) (hc : normalizeStr c ≠ [])
    (hk : k ∈ keys) (hkey : normalizeStr k ≠ []) (hsub : k <:+: t) :
    normalizeStr c ∈ detect_tags t aliases :=
  mem_detect_tags.mpr
    ⟨(c, keys), hmem, rfl, hc, k, hk, hkey, (pyStrip_sublistOf k).trans hsub⟩

/-- Witness for C10 at a concrete input: the alias `후지` occurs strictly
inside the token `왕후지가` of the text, with no boundary characters around
it, and the item `사과` is tagged. -/
theorem c10_substring_occurrence_suffices_for_tagging_witness :
    normalizeStr (toStr "사과") ∈
      detect_tags (toStr "왕후지가 인기") [(toStr "사과", [toStr "후지"])] :=
  c10_substring_occurrence_suffices_for_tagging
    (toStr "왕후지가 인기") [(toStr "사과", [toStr "후지"])]
    (toStr "사과") [toStr "후지"] (toStr "후지")
    (by decide) (by decide) (by decide) (by decide) (by decide)

/-- **C1** (counterexample).  The claim asserts that the text `시후지상승`,
in which the alias `후지` is embedded with no boundary on either side, does
not tag `사과`.  On the code it does: the boundary regex fails, but the
substring fallback `key in t` fires, so `사과` is tagged. -/
theorem c1_counterexample_embedded_alias_is_tagged :
    toStr "사과" ∈
      detect_tags (toStr "시후지상승") [(toStr "사과", [toStr "사과", toStr "후지"])] := by
  decide

/-- **C1** (amended).  The Tagger tags a canonical name exactly when some of
its aliases (normalized, non-empty) occurs as a plain contiguous substring of
the text — the boundary-aware regex is attempted first, but a boundary match
is itself a substring occurrence and a bare substring occurrence already
suffices via the fallback `key in t`.  With alias table
`{"사과": ["사과", "후지"]}`, the text `국산 후지 가격 상승` tags `사과`,
and the text `시후지상승` (alias embedded with no boundary) also tags `사과`. -/
theorem c1_tagging_iff_substring_occurrence :
    (∀ (t : Str) (aliases : List (Str × List Str)) (a : Str),
        a ∈ detect_tags t aliases ↔
          ∃ p ∈ aliases, normalizeStr p.1 = a ∧ a ≠ [] ∧
            ∃ k ∈ p.2, normalizeStr k ≠ [] ∧ normalizeStr k <:+: t) ∧
    detect_tags (toStr "국산 후지 가격 상승")
        [(toStr "사과", [toStr "사과", toStr "후지"])] = [toStr "사과"] ∧
    detect_tags (toStr "시후지상승")
        [(toStr "사과", [toStr "사과", toStr "후지"])] = [toStr "사과"] :=
  ⟨fun _ _ _ => mem_detect_tags, by decide, by decide⟩

-- Registry and orchestrator lemmas ----------------------------------------

/-- `registry_exists` is the existence of a SUCCESS row for the key. -/
theorem registry_exists_iff (reg : Registry) (c h : String) :
    registry_exists reg c h = true ↔
      ∃ en ∈ reg, en.collectionName = c ∧ en.fileHash = h ∧ en.status = "SUCCESS" := by
  unfold registry_exists
  rw [List.any_eq_true]
  constructor
  · rintro ⟨en, hmem, hp⟩
    simp only [Bool.and_eq_true, beq_iff_eq] at hp
    exact ⟨en, hmem, hp.1.1, hp.1.2, hp.2⟩
  · rintro ⟨en, hmem, h1, h2, h3⟩
    exact ⟨en, hmem, by simp [h1, h2, h3]⟩

/-- After an upsert the key's rows are exactly the new row. -/
theorem filter_key_upsertRow (reg : Registry) (en : RegEntry) :
    (upsertRow reg en).filter (keyMatches en.collectionName en.fileHash) = [en] := by
  unfold upsertRow
  rw [List.filter_append]
  have h1 : (reg.filter (fun o => !keyMatches en.collectionName en.fileHash o)).filter
      (keyMatches en.collectionName en.fileHash) = [] := by
    rw [List.filter_eq_nil_iff]
    intro a ha
    have := List.of_mem_filter ha
    simp only [Bool.not_eq_true'] at this
    simp [this]
  rw [h1]
  simp [keyMatches]

/-- After a FAILED upsert there is no SUCCESS row for the key. -/
theorem registry_exists_after_upsert_failed (reg : Registry)
    (c fn h : String) (cat per src : Option String) (e : String) :
    registry_exists (registry_upsert_failed reg c fn h cat per src e) c h = false := by
  rw [Bool.eq_false_iff]
  intro htrue
  obtain ⟨en, hmem, h1, h2, h3⟩ := (registry_exists_iff _ _ _).mp htrue
  unfold registry_upsert_failed upsertRow at hmem
  rcases List.mem_append.mp hmem with hmem | hmem
  · have := List.of_mem_filter hmem
    simp only [Bool.not_eq_true'] at this
    rw [keyMatches] at this
    simp [h1, h2] at this
  · simp only [List.mem_singleton] at hmem
    subst hmem
    simp at h3

/-- When the dedup gate lets the attempt through and the `try` body raises,
the orchestrator's outcome, registry update, and call trace in full. -/
theorem ingest_pdf_report_error (env : IngestEnv) (reg : Registry) (e : String)
    (hgate : env.force = true ∨ registry_exists reg env.collectionName env.fileHash = false)
    (hfail : (tryBody env).2 = Except.error e) :
    ingest_pdf_report env reg =
      ({ status := "FAILED", fileName := env.fileName, fileHash := env.fileHash,
         error := some e },
       registry_upsert_failed reg env.collectionName env.fileName env.fileHash
         env.category env.reportDate (some env.source) e,
       (tryBody env).1 ++
         [Event.upsertFailed env.collectionName env.fileName env.fileHash e]) := by
  have hg : (!env.force && registry_exists reg env.collectionName env.fileHash) = false := by
    rcases hgate with hf | hr
    · simp [hf]
    · simp [hr]
  unfold ingest_pdf_report
  simp only [hg, Bool.false_eq_true, if_false]
  rcases htb : tryBody env with ⟨evs, r⟩
  simp only [htb]
  simp only [htb] at hfail
  subst hfail
  rfl

/-- When the dedup gate lets the attempt through and the `try` body succeeds,
the orchestrator's outcome, registry update, and call trace in full. -/
theorem ingest_pdf_report_ok (env : IngestEnv) (reg : Registry)
    (pages : List Page) (tagged : List Chunk)
    (hgate : env.force = true ∨ registry_exists reg env.collectionName env.fileHash = false)
    (hok : (tryBody env).2 = Except.ok (pages, tagged)) :
    ingest_pdf_report env reg =
      ({ status := "SUCCESS", fileName := env.fileName, fileHash := env.fileHash,
         pages := some pages.length, chunks := some tagged.length,
         taggedItemChunks := some ((tagged.filter (fun d => !d.itemTags.isEmpty)).length),
         taggedVarietyChunks := some ((tagged.filter (fun d => !d.varietyTags.isEmpty)).length),
         collectionName := some env.collectionName },
       registry_upsert_success reg env.collectionName env.fileName env.fileHash
         env.category env.reportDate (some env.source),
       (tryBody env).1 ++
         [Event.upsertSuccess env.collectionName env.fileName env.fileHash]) := by
  have hg : (!env.force && registry_exists reg env.collectionName env.fileHash) = false := by
    rcases hgate with hf | hr
    · simp [hf]
    · simp [hr]
  unfold ingest_pdf_report
  simp only [hg, Bool.false_eq_true, if_false]
  rcases htb : tryBody env with ⟨evs, r⟩
  simp only [htb]
  simp only [htb] at hok
  subst hok
  rfl

/-- An attempt that got past the dedup gate never reports SKIPPED. -/
theorem ingest_not_skipped (env : IngestEnv) (reg : Registry)
    (hgate : env.force = true ∨ registry_exists reg env.collectionName env.fileHash = false) :
    (ingest_pdf_report env reg).1.status ≠ "SKIPPED" := by
  rcases htb : tryBody env with ⟨evs, r⟩
  cases r with
  | error e =>
    rw [ingest_pdf_report_error env reg e hgate (by rw [htb])]
    simp
  | ok pr =>
    obtain ⟨pages, tagged⟩ := pr
    rw [ingest_pdf_report_ok env reg pages tagged hgate (by rw [htb])]
    simp

/-- **C2.**  If the dedup gate admits the attempt and any exception is raised
inside the orchestrator's `try` body (forced delete, page loading, chunk
building including segmentation and the splitter, or the bulk write), the
orchestrator catches it: the result is a structured FAILED outcome carrying
the message (no exception propagates — the model is a total function), and
the registry rows for the `(collection, fingerprint)` key become exactly one
FAILED row with that error — not a SUCCESS row and not no row. -/
theorem c2_exception_caught_failed_row_recorded
    (env : IngestEnv) (reg : Registry) (e : String)
    (hgate : env.force = true ∨ registry_exists reg env.collectionName env.fileHash = false)
    (hfail : (tryBody env).2 = Except.error e) :
    (ingest_pdf_report env reg).1.status = "FAILED" ∧
    (ingest_pdf_report env reg).1.error = some e ∧
    (ingest_pdf_report env reg).2.1.filter (keyMatches env.collectionName env.fileHash) =
      [{ collectionName := env.collectionName, fileHash := env.fileHash,
         fileName := env.fileName, category := env.category,
         period := env.reportDate, source := some env.source,
         status := "FAILED", error := some e }] := by
  rw [ingest_pdf_report_error env reg e hgate hfail]
  refine ⟨rfl, rfl, ?_⟩
  show (registry_upsert_failed reg env.collectionName env.fileName env.fileHash
      env.category env.reportDate (some env.source) e).filter
      (keyMatches env.collectionName env.fileHash) = _
  unfold registry_upsert_failed
  exact filter_key_upsertRow reg
    { collectionName := env.collectionName, fileHash := env.fileHash,
      fileName := env.fileName, category := env.category, period := env.reportDate,
      source := some env.source, status := "FAILED", error := some e }

/-- Witness for C2: with the bulk write raising `boom`, the attempt reports
FAILED with that message and the registry holds exactly one FAILED row. -/
theorem c2_exception_caught_failed_row_recorded_witness :
    (ingest_pdf_report { sampleEnv with writeOutcome := Except.error "boom" } []).1.status
      = "FAILED" ∧
    (ingest_pdf_report { sampleEnv with writeOutcome := Except.error "boom" } []).1.error
      = some "boom" ∧
    (ingest_pdf_report { sampleEnv with writeOutcome := Except.error "boom" } []).2.1.filter
        (keyMatches "agri_reports" "h1") =
      [{ collectionName := "agri_reports", fileHash := "h1", fileName := "report.pdf",
         category := none, period := none, source := some "KREI_관측월보",
         status := "FAILED", error := some "boom" }] :=
  c2_exception_caught_failed_row_recorded _ [] "boom" (Or.inr rfl) rfl

/-- **C3** (counterexample).  The claim states the skip outcome's reason is
the string `already ingested`; the code returns `already_ingested` (with an
underscore).  At a registry holding a SUCCESS row for the key and `force`
off, the attempt is SKIPPED but its reason is not `already ingested`. -/
theorem c3_counterexample_skip_reason_string :
    (ingest_pdf_report sampleEnv regWithSuccess).1.status = "SKIPPED" ∧
    (ingest_pdf_report sampleEnv regWithSuccess).1.reason ≠ some "already ingested" ∧
    (ingest_pdf_report sampleEnv regWithSuccess).1.reason = some "already_ingested" := by
  refine ⟨by decide, by decide, by decide⟩

/-- **C3** (amended).  The registry existence check returns true iff a row
with status SUCCESS exists for the `(collection, fingerprint)` key (a FAILED
row does not count); when `force` is false the attempt is SKIPPED exactly
when such a SUCCESS row exists, in which case the outcome carries the reason
`already_ingested` (with an underscore) and no work is performed (no
collaborator calls, registry unchanged); and an attempt that follows a
FAILED attempt for the same key is not skipped. -/
theorem c3_success_gate_characterization :
    (∀ (reg : Registry) (c h : String),
        registry_exists reg c h = true ↔
          ∃ en ∈ reg, en.collectionName = c ∧ en.fileHash = h ∧ en.status = "SUCCESS") ∧
    (∀ (env : IngestEnv) (reg : Registry), env.force = false →
        ((ingest_pdf_report env reg).1.status = "SKIPPED" ↔
          registry_exists reg env.collectionName env.fileHash = true)) ∧
    (∀ (env : IngestEnv) (reg : Registry), env.force = false →
        registry_exists reg env.collectionName env.fileHash = true →
        ingest_pdf_report env reg =
          ({ status := "SKIPPED", fileName := env.fileName, fileHash := env.fileHash,
             reason := some "already_ingested" }, reg, [])) ∧
    (∀ (env env2 : IngestEnv) (reg : Registry) (e : String),
        (env.force = true ∨ registry_exists reg env.collectionName env.fileHash = false) →
        (tryBody env).2 = Except.error e →
        env2.force = false →
        env2.collectionName = env.collectionName → env2.fileHash = env.fileHash →
        (ingest_pdf_report env2 (ingest_pdf_report env reg).2.1).1.status ≠ "SKIPPED") := by
  refine ⟨registry_exists_iff, ?_, ?_, ?_⟩
  · intro env reg hf
    cases hre : registry_exists reg env.collectionName env.fileHash with
    | true =>
      constructor
      · intro _
        rfl
      · intro _
        unfold ingest_pdf_report
        simp [hf, hre]
    | false =>
      constructor
      · intro hsk
        exact absurd hsk (ingest_not_skipped env reg (Or.inr hre))
      · intro h
        exact absurd h (by simp)
  · intro env reg hf hre
    unfold ingest_pdf_report
    simp [hf, hre]
  · intro env env2 reg e hgate hfail hf2 hc2 hh2
    have hreg : (ingest_pdf_report env reg).2.1 =
        registry_upsert_failed reg env.collectionName env.fileName env.fileHash
          env.category env.reportDate (some env.source) e := by
      rw [ingest_pdf_report_error env reg e hgate hfail]
    have hex : registry_exists (ingest_pdf_report env reg).2.1
        env2.collectionName env2.fileHash = false := by
      rw [hreg, hc2, hh2]
      exact registry_exists_after_upsert_failed reg env.collectionName env.fileName
        env.fileHash env.category env.reportDate (some env.source) e
    exact ingest_not_skipped env2 _ (Or.inr hex)

/-- Witness for C3: at `sampleEnv` over a registry with a SUCCESS row, the
attempt is skipped with reason `already_ingested`, leaving everything
untouched. -/
theorem c3_success_gate_characterization_witness :
    ingest_pdf_report sampleEnv regWithSuccess =
      ({ status := "SKIPPED", fileName := "report.pdf", fileHash := "h1",
         reason := some "already_ingested" }, regWithSuccess, []) :=
  c3_success_gate_characterization.2.2.1 sampleEnv regWithSuccess rfl (by decide)

/-- **C4.**  For every splitter behaviour and page list, a successful
`build_chunks_from_pages` returns chunks whose `chunk_id` metadata is the
decimal numeral of the chunk's position: the list of ids is exactly
`["0", "1", ..., str(N-1)]` in output order (pages, then sections, then
intra-section spans), hence the ids are unique and form a contiguous
ascending sequence starting at 0. -/
theorem c4_chunk_ids_contiguous (split : Str → Except String (List Str))
    (raw : List Page) (cs : List Chunk)
    (h : build_chunks_from_pages split raw = Except.ok cs) :
    cs.map Chunk.chunkId = (List.range cs.length).map toString := by
  unfold build_chunks_from_pages at h
  rcases hbase : chunksOfPages split raw with e | base
  · rw [hbase] at h
    simp [Bind.bind, Except.bind] at h
  · rw [hbase] at h
    simp only [Bind.bind, Except.bind, pure, Except.pure, Except.ok.injEq] at h
    subst h
    rw [List.map_map, List.length_map, List.enum_length]
    have hcomp : (Chunk.chunkId ∘ fun ci : Nat × Chunk =>
        { ci.2 with chunkId := toString ci.1 }) = (fun ci => toString ci.1) := rfl
    rw [hcomp]
    have : (fun ci : Nat × Chunk => toString ci.1) = (toString ∘ Prod.fst) := rfl
    rw [this, ← List.map_map, List.enum_map_fst]

/-- Witness for C4 at a concrete input: one page, a splitter cutting the page
into two spans, ids `"0"` and `"1"`. -/
theorem c4_chunk_ids_contiguous_witness :
    build_chunks_from_pages
        (fun s => Except.ok [s.take 2, s.drop 2])
        [{ content := toStr "가격 상승", pageNum := some 3 }] =
      Except.ok
        [{ content := toStr "가격", page := some 3, sectionTitle := [], chunkId := "0" },
         { content := toStr " 상승", page := some 3, sectionTitle := [], chunkId := "1" }] ∧
    [{ content := toStr "가격", page := some 3, sectionTitle := ([] : Str), chunkId := "0" },
     { content := toStr " 상승", page := some 3, sectionTitle := ([] : Str), chunkId := "1" }].map
        Chunk.chunkId =
      (List.range
        ([{ content := toStr "가격", page := some 3, sectionTitle := ([] : Str), chunkId := "0" },
          { content := toStr " 상승", page := some 3, sectionTitle := ([] : Str), chunkId := "1" }] :
            List Chunk).length).map toString :=
  ⟨rfl, c4_chunk_ids_contiguous (fun s => Except.ok [s.take 2, s.drop 2])
    [{ content := toStr "가격 상승", pageNum := some 3 }] _ rfl⟩

/-- Pages that are all blank after stripping produce no chunks. -/
theorem chunksOfPages_blank (split : Str → Except String (List Str))
    (pages : List Page) (hb : ∀ p ∈ pages, pyStrip p.content = []) :
    chunksOfPages split pages = Except.ok [] := by
  induction pages with
  | nil => rfl
  | cons p rest ih =>
    rw [chunksOfPages]
    have h1 : chunksOfPage split p = Except.ok [] := by
      unfold chunksOfPage
      rw [hb p (List.mem_cons_self p rest)]
      rfl
    rw [h1, ih (fun q hq => hb q (List.mem_cons_of_mem _ hq))]
    rfl

/-- `build_chunks_from_pages` on all-blank (or no) pages returns no chunks. -/
theorem build_chunks_blank (split : Str → Except String (List Str))
    (pages : List Page) (hb : ∀ p ∈ pages, pyStrip p.content = []) :
    build_chunks_from_pages split pages = Except.ok [] := by
  unfold build_chunks_from_pages
  rw [chunksOfPages_blank split pages hb]
  rfl

/-- The `try` body on all-blank pages: the only possible collaborator call is
the forced delete, and the body succeeds with an empty chunk list. -/
theorem tryBody_blank (env : IngestEnv) (pages : List Page)
    (hdel : env.force = true → env.deleteOutcome = Except.ok ())
    (hload : env.loadOutcome = Except.ok pages)
    (hb : ∀ p ∈ pages, pyStrip p.content = []) :
    tryBody env =
      ((if env.force then [Event.deleteByDocId env.collectionName env.fileHash] else []),
       Except.ok (pages, [])) := by
  unfold tryBody
  cases hf : env.force with
  | false =>
    simp [hf, hload, build_chunks_blank env.split pages hb]
  | true =>
    simp [hf, hdel hf, hload, build_chunks_blank env.split pages hb]

/-- **C7.**  An attempt past the dedup gate whose loaded pages are all blank
(or absent), with the optional forced delete succeeding, makes no Vector
Store write call, still records a SUCCESS registry row for the key, and
returns a structured SUCCESS outcome with a chunk count of 0. -/
theorem c7_blank_pages_success_zero_chunks
    (env : IngestEnv) (reg : Registry) (pages : List Page)
    (hgate : env.force = true ∨ registry_exists reg env.collectionName env.fileHash = false)
    (hdel : env.force = true → env.deleteOutcome = Except.ok ())
    (hload : env.loadOutcome = Except.ok pages)
    (hb : ∀ p ∈ pages, pyStrip p.content = []) :
    (ingest_pdf_report env reg).1.status = "SUCCESS" ∧
    (ingest_pdf_report env reg).1.chunks = some 0 ∧
    (∀ ev ∈ (ingest_pdf_report env reg).2.2, isWriteEvent ev = false) ∧
    (ingest_pdf_report env reg).2.1.filter (keyMatches env.collectionName env.fileHash) =
      [{ collectionName := env.collectionName, fileHash := env.fileHash,
         fileName := env.fileName, category := env.category,
         period := env.reportDate, source := some env.source,
         status := "SUCCESS", error := none }] := by
  have htb := tryBody_blank env pages hdel hload hb
  rw [ingest_pdf_report_ok env reg pages [] hgate (by rw [htb])]
  refine ⟨rfl, rfl, ?_, ?_⟩
  · intro ev hev
    simp only [htb] at hev
    rcases List.mem_append.mp hev with h | h
    · cases hf : env.force with
      | false => simp [hf] at h
      | true =>
        rw [hf] at h
        simp only [if_true, List.mem_singleton] at h
        subst h
        rfl
    · simp only [List.mem_singleton] at h
      subst h
      rfl
  · show (registry_upsert_success reg env.collectionName env.fileName env.fileHash
        env.category env.reportDate (some env.source)).filter
        (keyMatches env.collectionName env.fileHash) = _
    unfold registry_upsert_success
    exact filter_key_upsertRow reg
      { collectionName := env.collectionName, fileHash := env.fileHash,
        fileName := env.fileName, category := env.category, period := env.reportDate,
        source := some env.source, status := "SUCCESS", error := none }

/-- Witness for C7: a forced attempt over one blank page and one whitespace
page reports SUCCESS with zero chunks. -/
theorem c7_blank_pages_success_zero_chunks_witness :
    (ingest_pdf_report blankPagesEnv []).1.status = "SUCCESS" ∧
    (ingest_pdf_report blankPagesEnv []).1.chunks = some 0 ∧
    (∀ ev ∈ (ingest_pdf_report blankPagesEnv []).2.2, isWriteEvent ev = false) ∧
    (ingest_pdf_report blankPagesEnv []).2.1.filter (keyMatches "agri_reports" "h1") =
      [{ collectionName := "agri_reports", fileHash := "h1", fileName := "report.pdf",
         category := none, period := none, source := some "KREI_관측월보",
         status := "SUCCESS", error := none }] :=
  c7_blank_pages_success_zero_chunks blankPagesEnv []
    [{ content := [], pageNum := some 0 }, { content := toStr "  \n ", pageNum := some 1 }]
    (Or.inl rfl) (fun _ => rfl) rfl (by decide)

/-- Shape of the `try` body's call trace: the optional forced delete first,
then a remainder holding no delete call, at most one write call, and any
write call carrying the complete chunk set built from the loaded pages. -/
theorem tryBody_trace_shape (env : IngestEnv) :
    ∃ wr : List Event,
      (tryBody env).1 =
        (if env.force then [Event.deleteByDocId env.collectionName env.fileHash]
         else []) ++ wr ∧
      (∀ ev ∈ wr, isDeleteEvent ev = false) ∧
      (wr.filter isWriteEvent).length ≤ 1 ∧
      (∀ (c : String) (l : List Chunk), Event.bulkWrite c l ∈ wr →
        c = env.collectionName ∧
        ∃ pages splits, env.loadOutcome = Except.ok pages ∧
          build_chunks_from_pages env.split pages = Except.ok splits ∧
          splits ≠ [] ∧ l = splits.map (attachMeta env)) := by
  unfold tryBody
  cases hdo : (if env.force then env.deleteOutcome else Except.ok ()) with
  | error e => exact ⟨[], by simp [hdo], by simp, by simp, by simp⟩
  | ok u =>
    cases u
    cases hload : env.loadOutcome with
    | error e => exact ⟨[], by simp [hdo, hload], by simp, by simp, by simp⟩
    | ok pages =>
      cases hbuild : build_chunks_from_pages env.split pages with
      | error e => exact ⟨[], by simp [hdo, hload, hbuild], by simp, by simp, by simp⟩
      | ok splits =>
        cases htag : (splits.map (attachMeta env)).isEmpty with
        | true => exact ⟨[], by simp [hdo, hload, hbuild, htag], by simp, by simp, by simp⟩
        | false =>
          refine ⟨[Event.bulkWrite env.collectionName (splits.map (attachMeta env))],
            ?_, ?_, ?_, ?_⟩
          · cases hw : env.writeOutcome with
            | error e => simp [hdo, hload, hbuild, htag, hw]
            | ok u => cases u; simp [hdo, hload, hbuild, htag, hw]
          · intro ev hev
            simp only [List.mem_singleton] at hev
            subst hev
            rfl
          · simp [isWriteEvent]
          · intro c l hmem
            simp only [List.mem_singleton, Event.bulkWrite.injEq] at hmem
            obtain ⟨hc, hl⟩ := hmem
            refine ⟨hc, pages, splits, rfl, hbuild, ?_, hl⟩
            intro hnil
            subst hnil
            simp at htag

/-- The orchestrator's full trace is the `try` body's trace followed by one
registry upsert, which is neither a delete nor a write call. -/
theorem ingest_events_shape (env : IngestEnv) (reg : Registry)
    (hgate : env.force = true ∨ registry_exists reg env.collectionName env.fileHash = false) :
    ∃ fin : Event, (ingest_pdf_report env reg).2.2 = (tryBody env).1 ++ [fin] ∧
      isDeleteEvent fin = false ∧ isWriteEvent fin = false := by
  rcases htb : tryBody env with ⟨evs, r⟩
  cases r with
  | error e =>
    rw [ingest_pdf_report_error env reg e hgate (by rw [htb])]
    exact ⟨Event.upsertFailed env.collectionName env.fileName env.fileHash e,
      by rw [htb], rfl, rfl⟩
  | ok pr =>
    obtain ⟨pages, tagged⟩ := pr
    rw [ingest_pdf_report_ok env reg pages tagged hgate (by rw [htb])]
    exact ⟨Event.upsertSuccess env.collectionName env.fileName env.fileHash,
      by rw [htb], rfl, rfl⟩

/-- **C6.**  For an attempt past the dedup gate: with `force` on, exactly one
delete-by-doc-id call (for the target collection and the fingerprint) is
made, as the very first collaborator call — hence before the bulk write if
one happens; with `force` off, no delete call is made; the bulk write is
called at most once per attempt, and any write call carries the complete
chunk set built from the loaded pages (never a partial set). -/
theorem c6_forced_delete_and_single_write (env : IngestEnv) (reg : Registry)
    (hgate : env.force = true ∨ registry_exists reg env.collectionName env.fileHash = false) :
    (env.force = true →
      ∃ rest, (ingest_pdf_report env reg).2.2 =
          Event.deleteByDocId env.collectionName env.fileHash :: rest ∧
        ∀ ev ∈ rest, isDeleteEvent ev = false) ∧
    (env.force = false →
      ∀ ev ∈ (ingest_pdf_report env reg).2.2, isDeleteEvent ev = false) ∧
    ((ingest_pdf_report env reg).2.2.filter isWriteEvent).length ≤ 1 ∧
    (∀ (c : String) (l : List Chunk),
      Event.bulkWrite c l ∈ (ingest_pdf_report env reg).2.2 →
        c = env.collectionName ∧
        ∃ pages splits, env.loadOutcome = Except.ok pages ∧
          build_chunks_from_pages env.split pages = Except.ok splits ∧
          splits ≠ [] ∧ l = splits.map (attachMeta env)) := by
  obtain ⟨wr, hwr, hwrnodel, hwrwrite, hwrbulk⟩ := tryBody_trace_shape env
  obtain ⟨fin, hfin, hfindel, hfinwrite⟩ := ingest_events_shape env reg hgate
  have htrace : (ingest_pdf_report env reg).2.2 =
      (if env.force then [Event.deleteByDocId env.collectionName env.fileHash]
       else []) ++ wr ++ [fin] := by
    rw [hfin, hwr]
  refine ⟨?_, ?_, ?_, ?_⟩
  · intro hf
    refine ⟨wr ++ [fin], ?_, ?_⟩
    · rw [htrace, hf]
      simp
    · intro ev hev
      rcases List.mem_append.mp hev with h | h
      · exact hwrnodel ev h
      · simp only [List.mem_singleton] at h
        subst h
        exact hfindel
  · intro hf
    intro ev hev
    rw [htrace, hf] at hev
    simp only [Bool.false_eq_true, if_false, List.nil_append] at hev
    rcases List.mem_append.mp hev with h | h
    · exact hwrnodel ev h
    · simp only [List.mem_singleton] at h
      subst h
      exact hfindel
  · rw [htrace, List.filter_append, List.filter_append]
    have h1 : ((if env.force then
        [Event.deleteByDocId env.collectionName env.fileHash] else []).filter
          isWriteEvent) = [] := by
      cases env.force <;> simp [isWriteEvent]
    have h2 : ([fin].filter isWriteEvent) = [] := by
      simp [hfinwrite]
    rw [h1, h2]
    simpa using hwrwrite
  · intro c l hmem
    rw [htrace] at hmem
    rcases List.mem_append.mp hmem with h | h
    · rcases List.mem_append.mp h with h' | h'
      · exfalso
        cases hf : env.force with
        | true => rw [hf] at h'; simp at h'
        | false => rw [hf] at h'; simp at h'
      · exact hwrbulk c l h'
    · exfalso
      simp only [List.mem_singleton] at h
      rw [← h] at hfinwrite
      simp [isWriteEvent] at hfinwrite

/-- Witness for C6: a forced re-ingest of `sampleEnv`'s file over an empty
registry deletes first, writes once, and the write carries the two built
chunks. -/
theorem c6_forced_delete_and_single_write_witness :
    (∃ rest, (ingest_pdf_report { sampleEnv with force := true } []).2.2 =
        Event.deleteByDocId "agri_reports" "h1" :: rest ∧
      ∀ ev ∈ rest, isDeleteEvent ev = false) ∧
    ((ingest_pdf_report { sampleEnv with force := true } []).2.2.filter
        isWriteEvent).length ≤ 1 :=
  ⟨(c6_forced_delete_and_single_write { sampleEnv with force := true } []
      (Or.inl rfl)).1 rfl,
   (c6_forced_delete_and_single_write { sampleEnv with force := true } []
      (Or.inl rfl)).2.2.1⟩

/-- **C5** (counterexample).  The claim asserts that page text preceding the
first heading match forms a section with an empty title (and so no page text
is dropped).  On the code, for the page `서문\n1. 서론\n본문` the section
list is a single section starting at the heading match: no section has an
empty title and the preamble `서문` appears in no section body — the loop
slices from `m.start()` of each match, so the preamble is dropped. -/
theorem c5_counterexample_preamble_dropped :
    split_by_headings (toStr "서문\n1. 서론\n본문") =
      [(toStr "1. 서론", toStr "1. 서론\n본문")] ∧
    (∀ p ∈ split_by_headings (toStr "서문\n1. 서론\n본문"), p.1 ≠ ([] : Str)) ∧
    (∀ p ∈ split_by_headings (toStr "서문\n1. 서론\n본문"), ¬ toStr "서문" <:+: p.2) := by
  refine ⟨by decide, by decide, by decide⟩

/-- **C5** (amended).  Each heading match starts a section that runs until
the next match start or the end of the page: section `i` has the stripped
match text as its title and the stripped slice from match `i`'s start to
match `i+1`'s start (or the end) as its body.  Text preceding the first
heading match is discarded, not kept as an empty-title section — every
section starts at a match start.  If no heading matches anywhere on the
page, the entire page is one single section with an empty title. -/
theorem c5_sections_follow_matches :
    (∀ text : Str, findMatches text = [] → split_by_headings text = [([], text)]) ∧
    (∀ text : Str, findMatches text ≠ [] →
        split_by_headings text = sectionsOf text (findMatches text)) ∧
    (∀ (text : Str) (ms : List (Nat × Nat)), (sectionsOf text ms).length = ms.length) ∧
    (∀ (text : Str) (ms : List (Nat × Nat)) (i s1 e1 : Nat),
        ms[i]? = some (s1, e1) →
        (sectionsOf text ms)[i]? =
          some (pyStrip (pySlice text s1 e1),
                pyStrip (pySlice text s1
                  (match ms[(i+1)]? with
                   | some (s2, _) => s2
                   | none => text.length)))) := by
  refine ⟨?_, ?_, ?_, ?_⟩
  · intro text h
    simp [split_by_headings, h]
  · intro text h
    simp [split_by_headings, List.isEmpty_iff, h]
  · intro text ms
    induction ms with
    | nil => rfl
    | cons hd rest ih =>
      obtain ⟨s1, e1⟩ := hd
      simp [sectionsOf, ih]
  · intro text ms
    induction ms with
    | nil =>
      intro i s1 e1 h
      simp at h
    | cons hd rest ih =>
      intro i s1 e1 h
      obtain ⟨hs1, he1⟩ := hd
      cases i with
      | zero =>
        simp only [List.getElem?_cons_zero, Option.some.injEq, Prod.mk.injEq] at h
        obtain ⟨rfl, rfl⟩ := h
        cases rest with
        | nil => simp [sectionsOf]
        | cons nxt rest' =>
          obtain ⟨s2, e2⟩ := nxt
          simp [sectionsOf]
      | succ j =>
        simp only [List.getElem?_cons_succ] at h
        have := ih j s1 e1 h
        simpa [sectionsOf] using this

/-- Witness for C5: a headingless page is one empty-title section, and with
matches `[(0,4), (5,9)]` on `1. 가\n2. 나` the first section runs from the
first match's start to the second match's start. -/
theorem c5_sections_follow_matches_witness :
    split_by_headings (toStr "본문만 있는 페이지") = [([], toStr "본문만 있는 페이지")] ∧
    (sectionsOf (toStr "1. 가\n2. 나") [(0, 4), (5, 9)])[0]? =
      some (pyStrip (pySlice (toStr "1. 가\n2. 나") 0 4),
            pyStrip (pySlice (toStr "1. 가\n2. 나") 0
              (match ([(0, 4), (5, 9)] : List (Nat × Nat))[1]? with
               | some (s2, _) => s2
               | none => (toStr "1. 가\n2. 나").length))) :=
  ⟨c5_sections_follow_matches.1 (toStr "본문만 있는 페이지") (by decide),
   c5_sections_follow_matches.2.2.2 (toStr "1. 가\n2. 나") [(0, 4), (5, 9)] 0 0 4 rfl⟩

-- Alias-loader lemmas -------------------------------------------------------

theorem selfAliases_isEmpty (names : List Str) :
    (selfAliases names).isEmpty = names.isEmpty := by
  cases names <;> rfl

theorem mem_dictInsert {p : Str × List Str} {d : List (Str × List Str)}
    {k : Str} {v : List Str} (h : p ∈ dictInsert d k v) : p ∈ d ∨ p = (k, v) := by
  unfold dictInsert at h
  by_cases hc : d.any (fun q => q.1 == k)
  · rw [if_pos hc] at h
    obtain ⟨q, hq, hqe⟩ := List.mem_map.mp h
    by_cases hqk : q.1 == k
    · rw [if_pos hqk] at hqe
      exact Or.inr hqe.symm
    · rw [if_neg hqk] at hqe
      exact Or.inl (hqe ▸ hq)
  · rw [if_neg hc] at h
    rcases List.mem_append.mp h with h | h
    · exact Or.inl h
    · exact Or.inr (List.mem_singleton.mp h)

theorem load_aliases_from_env_json_values_ne_nil (raw : Option (List (Str × JVal))) :
    ∀ p ∈ load_aliases_from_env_json raw, p.2 ≠ [] := by
  unfold load_aliases_from_env_json
  cases raw with
  | none => simp
  | some entries =>
    suffices h : ∀ (acc : List (Str × List Str)), (∀ p ∈ acc, p.2 ≠ []) →
        ∀ p ∈ entries.foldl (fun out kv =>
          let key := normalizeStr kv.1
          if key.isEmpty then out
          else match kv.2 with
            | .arr xs =>
              let arr := (xs.map normalizeStr).filter (fun x => !x.isEmpty)
              if arr.isEmpty then out else dictInsert out key arr
            | .str s =>
              if (normalizeStr s).isEmpty then out
              else dictInsert out key [normalizeStr s]
            | .other => out) acc, p.2 ≠ [] by
      exact h [] (by simp)
    induction entries with
    | nil => intro acc hacc p hp; exact hacc p hp
    | cons kv rest ih =>
      intro acc hacc p hp
      rw [List.foldl_cons] at hp
      refine ih _ ?_ p hp
      intro q hq
      by_cases hkey : (normalizeStr kv.1).isEmpty
      · simp only [hkey, if_pos rfl] at hq
        exact hacc q hq
      · simp only [hkey, Bool.false_eq_true, if_false] at hq
        cases hv : kv.2 with
        | arr xs =>
          rw [hv] at hq
          simp only at hq
          by_cases harr : ((xs.map normalizeStr).filter (fun x => !x.isEmpty)).isEmpty
          · rw [if_pos harr] at hq
            exact hacc q hq
          · rw [if_neg harr] at hq
            rcases mem_dictInsert hq with h | h
            · exact hacc q h
            · rw [h]
              intro hnil
              have hnil2 : (xs.map normalizeStr).filter (fun x => !x.isEmpty) = [] := hnil
              rw [hnil2] at harr
              simp at harr
        | str sv =>
          rw [hv] at hq
          simp only at hq
          by_cases hsv : (normalizeStr sv).isEmpty
          · rw [if_pos hsv] at hq
            exact hacc q hq
          · rw [if_neg hsv] at hq
            rcases mem_dictInsert hq with h | h
            · exact hacc q h
            · rw [h]
              simp
        | other =>
          rw [hv] at hq
          exact hacc q hq

theorem load_aliases_from_env_list_values_ne_nil (raw : Str) :
    ∀ p ∈ load_aliases_from_env_list raw, p.2 ≠ [] := by
  unfold load_aliases_from_env_list
  by_cases h : (pyStrip raw).isEmpty
  · simp [h]
  · rw [if_neg h]
    intro p hp
    obtain ⟨n, hn, hne⟩ := List.mem_map.mp hp
    rw [← hne]
    simp

theorem selfAliases_values_ne_nil (names : List Str) :
    ∀ p ∈ selfAliases names, p.2 ≠ [] := by
  intro p hp
  obtain ⟨n, hn, hne⟩ := List.mem_map.mp hp
  rw [← hne]
  simp

/-- Normal form for the master-data step's if-chains. -/
theorem selfAliases_ite_norm (names : List Str) (dflt : List (Str × List Str)) :
    (if ¬names = [] → selfAliases names = [] then dflt
     else if names = [] then [] else selfAliases names) =
    if names = [] then dflt else selfAliases names := by
  by_cases h : names = []
  · simp [h]
  · have hs : selfAliases names ≠ [] := by
      cases names with
      | nil => exact absurd rfl h
      | cons a l => simp [selfAliases]
    simp [h, hs]

/-- The loader's result coincides with the spec-side resolution (items
independent; varieties independent except for the shared master-data `try`).
-/
theorem load_aliases_eq_spec (env : AliasEnv) :
    load_item_and_variety_aliases env = (specItemAliases env, specVarietyAliases env) := by
  unfold load_item_and_variety_aliases specItemAliases specVarietyAliases dbStep
  by_cases hj1 : (load_aliases_from_env_json env.itemJson).isEmpty <;>
  by_cases hv1 : (load_aliases_from_env_json env.varietyJson).isEmpty <;>
  by_cases hl1 : (load_aliases_from_env_list env.itemNamesRaw).isEmpty <;>
  by_cases hl2 : (load_aliases_from_env_list env.varietyNamesRaw).isEmpty <;>
  rcases hdbi : env.dbItemRows with u | rows <;>
  rcases hdbv : env.dbVarietyRows with u2 | vrows <;>
  (try simp_all [selfAliases_isEmpty]) <;>
  first
  | exact selfAliases_ite_norm _ _
  | exact ⟨selfAliases_ite_norm _ _, selfAliases_ite_norm _ _⟩

theorem specItemAliases_cases (env : AliasEnv) :
    (specItemAliases env = load_aliases_from_env_json env.itemJson ∧
      load_aliases_from_env_json env.itemJson ≠ []) ∨
    (specItemAliases env = load_aliases_from_env_list env.itemNamesRaw ∧
      load_aliases_from_env_list env.itemNamesRaw ≠ []) ∨
    (∃ rows, specItemAliases env = selfAliases (fetchNames rows) ∧
      selfAliases (fetchNames rows) ≠ []) ∨
    specItemAliases env = defaultItemAliases := by
  unfold specItemAliases
  cases h1 : (load_aliases_from_env_json env.itemJson).isEmpty with
  | false =>
    left
    constructor
    · simp [h1]
    · intro hn
      rw [hn] at h1
      simp at h1
  | true =>
    cases h2 : (load_aliases_from_env_list env.itemNamesRaw).isEmpty with
    | false =>
      right; left
      constructor
      · simp [h1, h2]
      · intro hn
        rw [hn] at h2
        simp at h2
    | true =>
      rcases hdb : env.dbItemRows with u | rows
      · right; right; right
        simp [h1, h2, hdb]
      · cases h3 : (fetchNames rows).isEmpty with
        | true =>
          right; right; right
          simp [h1, h2, hdb, selfAliases_isEmpty, h3]
        | false =>
          right; right; left
          refine ⟨rows, ?_, ?_⟩
          · simp [h1, h2, hdb, selfAliases_isEmpty, h3]
          · have hse : (selfAliases (fetchNames rows)).isEmpty = false := by
              rw [selfAliases_isEmpty, h3]
            intro hn
            rw [hn] at hse
            simp at hse

theorem specVarietyAliases_cases (env : AliasEnv) :
    (specVarietyAliases env = load_aliases_from_env_json env.varietyJson ∧
      load_aliases_from_env_json env.varietyJson ≠ []) ∨
    (specVarietyAliases env = load_aliases_from_env_list env.varietyNamesRaw ∧
      load_aliases_from_env_list env.varietyNamesRaw ≠ []) ∨
    (∃ rows, specVarietyAliases env = selfAliases (fetchNames rows) ∧
      selfAliases (fetchNames rows) ≠ []) ∨
    specVarietyAliases env = defaultVarietyAliases := by
  unfold specVarietyAliases
  cases h1 : (load_aliases_from_env_json env.varietyJson).isEmpty with
  | false =>
    left
    constructor
    · simp [h1]
    · intro hn
      rw [hn] at h1
      simp at h1
  | true =>
    cases h2 : (load_aliases_from_env_list env.varietyNamesRaw).isEmpty with
    | false =>
      right; left
      constructor
      · simp [h1, h2]
      · intro hn
        rw [hn] at h2
        simp at h2
    | true =>
      cases hbl : ((load_aliases_from_env_json env.itemJson).isEmpty &&
          (load_aliases_from_env_list env.itemNamesRaw).isEmpty &&
          (match env.dbItemRows with | .error _ => true | .ok _ => false)) with
      | true =>
        right; right; right
        simp [h1, h2, hbl]
      | false =>
        rcases hdb : env.dbVarietyRows with u | vrows
        · right; right; right
          simp [h1, h2, hbl, hdb]
        · cases h3 : (fetchNames vrows).isEmpty with
          | true =>
            right; right; right
            simp [h1, h2, hbl, hdb, selfAliases_isEmpty, h3]
          | false =>
            right; right; left
            refine ⟨vrows, ?_, ?_⟩
            · simp [h1, h2, hbl, hdb, selfAliases_isEmpty, h3]
            · have hse : (selfAliases (fetchNames vrows)).isEmpty = false := by
                rw [selfAliases_isEmpty, h3]
              intro hn
              rw [hn] at hse
              simp at hse

/-- **C9** (counterexample).  The claim's independent first-non-empty
resolution would give the varieties mapping from the master-data query
(`{"신고": ["신고"]}`) when every configuration source is empty and the
varieties query succeeds.  But both master-data queries share one `try`: with
the items query raising, the loader never runs the varieties query and falls
through to the built-in default variety table. -/
theorem c9_counterexample_shared_db_try :
    (load_item_and_variety_aliases aliasEnvDbItemFails).2 = defaultVarietyAliases ∧
    (load_item_and_variety_aliases aliasEnvDbItemFails).2 ≠
      selfAliases (fetchNames [some (toStr "신고")]) := by
  refine ⟨by decide, by decide⟩

/-- **C9** (amended).  The Alias Table Loader returns two non-empty mappings
in which every canonical name maps to at least one alias, resolving each side
by the first non-empty source in the order: structured env mapping, flat env
list, master-data query (each name its own sole alias), built-in default.
The items side is resolved independently of the variety configuration; the
varieties side is resolved independently except that the two master-data
queries share one exception scope, so when the items side reaches the master
data and its query raises, the varieties query is skipped and the varieties
side falls through to the default table. -/
theorem c9_loader_layered_resolution (env : AliasEnv) :
    load_item_and_variety_aliases env = (specItemAliases env, specVarietyAliases env) ∧
    (load_item_and_variety_aliases env).1 ≠ [] ∧
    (load_item_and_variety_aliases env).2 ≠ [] ∧
    (∀ p ∈ (load_item_and_variety_aliases env).1, p.2 ≠ []) ∧
    (∀ p ∈ (load_item_and_variety_aliases env).2, p.2 ≠ []) := by
  refine ⟨load_aliases_eq_spec env, ?_, ?_, ?_, ?_⟩
  · rw [load_aliases_eq_spec env]
    rcases specItemAliases_cases env with ⟨he, hne⟩ | ⟨he, hne⟩ | ⟨rows, he, hne⟩ | he <;>
      simp only [he] <;> first | exact hne | simp [defaultItemAliases]
  · rw [load_aliases_eq_spec env]
    rcases specVarietyAliases_cases env with ⟨he, hne⟩ | ⟨he, hne⟩ | ⟨rows, he, hne⟩ | he <;>
      simp only [he] <;> first | exact hne | simp [defaultVarietyAliases]
  · rw [load_aliases_eq_spec env]
    rcases specItemAliases_cases env with ⟨he, hne⟩ | ⟨he, hne⟩ | ⟨rows, he, hne⟩ | he <;>
      simp only [he]
    · exact load_aliases_from_env_json_values_ne_nil _
    · exact load_aliases_from_env_list_values_ne_nil _
    · exact selfAliases_values_ne_nil _
    · decide
  · rw [load_aliases_eq_spec env]
    rcases specVarietyAliases_cases env with ⟨he, hne⟩ | ⟨he, hne⟩ | ⟨rows, he, hne⟩ | he <;>
      simp only [he]
    · exact load_aliases_from_env_json_values_ne_nil _
    · exact load_aliases_from_env_list_values_ne_nil _
    · exact selfAliases_values_ne_nil _
    · decide

/-- Witness for C9 at `aliasEnvDbItemFails`: the returned item table is
non-empty and the default entry for `사과` carries its non-empty alias list.
-/
theorem c9_loader_layered_resolution_witness :
    (load_item_and_variety_aliases aliasEnvDbItemFails).1 ≠ [] ∧
    [toStr "사과", toStr "부사", toStr "홍로", toStr "후지"] ≠ ([] : List Str) :=
  ⟨(c9_loader_layered_resolution aliasEnvDbItemFails).2.1,
   (c9_loader_layered_resolution aliasEnvDbItemFails).2.2.2.1
     (toStr "사과", [toStr "사과", toStr "부사", toStr "홍로", toStr "후지"])
     (by decide)⟩

-- Heading-pattern lemmas (C8) ----------------------------------------------

theorem countWhile_eq_takeWhile_length (p : Char → Bool) (s : Str) :
    countWhile p s = (s.takeWhile p).length := by
  induction s with
  | nil => rfl
  | cons c cs ih =>
    rw [countWhile, List.takeWhile]
    cases hp : p c with
    | true => simp [hp, ih]
    | false => simp [hp]

theorem take_countWhile (p : Char → Bool) (s : Str) :
    s.take (countWhile p s) = s.takeWhile p := by
  induction s with
  | nil => rfl
  | cons c cs ih =>
    rw [countWhile, List.takeWhile]
    cases hp : p c with
    | true => simp [ih]
    | false => simp

theorem drop_countWhile (p : Char → Bool) (s : Str) :
    s.drop (countWhile p s) = s.dropWhile p := by
  induction s with
  | nil => rfl
  | cons c cs ih =>
    rw [countWhile, List.dropWhile]
    cases hp : p c with
    | true => simp [ih]
    | false => simp

theorem countWhile_append_all (p : Char → Bool) (xs ys : Str)
    (h : ∀ c ∈ xs, p c = true) :
    countWhile p (xs ++ ys) = xs.length + countWhile p ys := by
  induction xs with
  | nil => simp
  | cons c cs ih =>
    rw [List.cons_append, countWhile, if_pos (h c (List.mem_cons_self c cs)),
      ih (fun d hd => h d (List.mem_cons_of_mem c hd))]
    simp [Nat.add_assoc, Nat.add_comm, Nat.add_left_comm]

theorem countWhile_cons_false (p : Char → Bool) (c : Char) (cs : Str)
    (h : p c = false) : countWhile p (c :: cs) = 0 := by
  rw [countWhile, if_neg (by simp [h])]

theorem countWhile_all_of_ne_nil_false (p : Char → Bool) (xs : Str)
    (h : ∀ c ∈ xs, p c = true) : countWhile p xs = xs.length := by
  have := countWhile_append_all p xs [] h
  simpa using this

-- Character-class facts used to pin down the greedy runs.

theorem not_ws_of_digit {c : Char} (h : c.isDigit = true) : isWs c = false := by
  cases hws : isWs c with
  | false => rfl
  | true =>
    exfalso
    simp only [isWs, Bool.or_eq_true, decide_eq_true_eq] at hws
    rcases hws with ((((h' | h') | h') | h') | h') | h' <;> subst h' <;>
      exact absurd h (by decide)

theorem not_ws_of_roman {c : Char} (h : isRoman c = true) : isWs c = false := by
  simp only [isRoman, Bool.or_eq_true, decide_eq_true_eq] at h
  rcases h with (h | h) | h <;> subst h <;> decide

theorem not_ws_of_glyph {c : Char} (h : isGlyph c = true) : isWs c = false := by
  simp only [isGlyph, Bool.or_eq_true, decide_eq_true_eq] at h
  rcases h with ((h | h) | h) | h <;> subst h <;> decide

theorem not_digit_of_roman {c : Char} (h : isRoman c = true) : c.isDigit = false := by
  simp only [isRoman, Bool.or_eq_true, decide_eq_true_eq] at h
  rcases h with (h | h) | h <;> subst h <;> decide

theorem not_digit_of_glyph {c : Char} (h : isGlyph c = true) : c.isDigit = false := by
  simp only [isGlyph, Bool.or_eq_true, decide_eq_true_eq] at h
  rcases h with ((h | h) | h) | h <;> subst h <;> decide

theorem not_roman_of_glyph {c : Char} (h : isGlyph c = true) : isRoman c = false := by
  simp only [isGlyph, Bool.or_eq_true, decide_eq_true_eq] at h
  rcases h with ((h | h) | h) | h <;> subst h <;> decide

-- dropWhile/pyStrip decomposition lemmas.

theorem dropWhile_append_all (p : Char → Bool) (A xs : Str)
    (h : ∀ a ∈ A, p a = true) :
    List.dropWhile p (A ++ xs) = List.dropWhile p xs := by
  induction A with
  | nil => rfl
  | cons a as ih =>
    rw [List.cons_append, List.dropWhile_cons,
      if_pos (h a (List.mem_cons_self a as))]
    exact ih (fun b hb => h b (List.mem_cons_of_mem a hb))

theorem dropWhile_append_of_ne_nil (p : Char → Bool) (xs ys : Str)
    (h : List.dropWhile p xs ≠ []) :
    List.dropWhile p (xs ++ ys) = List.dropWhile p xs ++ ys := by
  induction xs with
  | nil => exact absurd rfl h
  | cons a as ih =>
    rw [List.cons_append, List.dropWhile_cons]
    cases hp : p a with
    | true =>
      rw [if_pos rfl, List.dropWhile_cons, if_pos hp]
      rw [List.dropWhile_cons, if_pos hp] at h
      exact ih h
    | false => simp [List.dropWhile_cons, hp]

theorem dropWhile_head_false (p : Char → Bool) {s : Str} {d : Char} {ds : Str}
    (h : List.dropWhile p s = d :: ds) : p d = false := by
  induction s with
  | nil => simp at h
  | cons a as ih =>
    rw [List.dropWhile_cons] at h
    cases hp : p a with
    | true =>
      rw [if_pos hp] at h
      exact ih h
    | false =>
      rw [if_neg (by simp [hp])] at h
      cases h
      exact hp

theorem mem_pyStrip_imp_mem {c : Char} {s : Str} (h : c ∈ pyStrip s) : c ∈ s := by
  unfold pyStrip at h
  rw [List.mem_reverse] at h
  have h1 := (List.dropWhile_sublist (l := (s.dropWhile isWs).reverse) (p := isWs)).mem h
  rw [List.mem_reverse] at h1
  exact (List.dropWhile_sublist (l := s) (p := isWs)).mem h1

theorem pyStrip_append_left_ws (A xs : Str) (h : ∀ a ∈ A, isWs a = true) :
    pyStrip (A ++ xs) = pyStrip xs := by
  unfold pyStrip
  rw [dropWhile_append_all isWs A xs h]

theorem pyStrip_append_right_ws (xs C : Str) (h : ∀ a ∈ C, isWs a = true) :
    pyStrip (xs ++ C) = pyStrip xs := by
  unfold pyStrip
  cases hd : List.dropWhile isWs xs with
  | nil =>
    have hxs : ∀ a ∈ xs, isWs a = true := List.dropWhile_eq_nil_iff.mp hd
    rw [dropWhile_append_all isWs xs C hxs, List.dropWhile_eq_nil_iff.mpr h]
  | cons d ds =>
    rw [dropWhile_append_of_ne_nil isWs xs C (by rw [hd]; simp), hd]
    rw [List.reverse_append, dropWhile_append_all isWs C.reverse _
      (fun a ha => h a (List.mem_reverse.mp ha))]

theorem pyStrip_eq_nil_imp_all_ws {s : Str} (h : pyStrip s = []) :
    ∀ c ∈ s, isWs c = true := by
  unfold pyStrip at h
  cases hd : List.dropWhile isWs s with
  | nil => exact List.dropWhile_eq_nil_iff.mp hd
  | cons d ds =>
    exfalso
    rw [hd] at h
    have h2 : List.dropWhile isWs (d :: ds).reverse = [] := by
      have := congrArg List.reverse h
      simpa using this
    have h3 : ∀ a ∈ (d :: ds).reverse, isWs a = true :=
      List.dropWhile_eq_nil_iff.mp h2
    have h4 : isWs d = true :=
      h3 d (List.mem_reverse.mpr (List.mem_cons_self d ds))
    rw [dropWhile_head_false isWs hd] at h4
    exact absurd h4 (by decide)

theorem pyStrip_decomposition (s : Str) :
    ∃ A C, s = A ++ pyStrip s ++ C ∧ (∀ a ∈ A, isWs a = true) ∧
      (∀ a ∈ C, isWs a = true) := by
  refine ⟨s.takeWhile isWs,
    ((s.dropWhile isWs).reverse.takeWhile isWs).reverse, ?_, ?_, ?_⟩
  · have hM : s.dropWhile isWs =
        pyStrip s ++ ((s.dropWhile isWs).reverse.takeWhile isWs).reverse := by
      conv_lhs => rw [← List.reverse_reverse (s.dropWhile isWs)]
      conv_lhs => rw [← List.takeWhile_append_dropWhile isWs (s.dropWhile isWs).reverse]
      rw [List.reverse_append]
      rfl
    conv_lhs => rw [← List.takeWhile_append_dropWhile isWs s, hM]
    rw [List.append_assoc]
  · exact fun a ha => List.mem_takeWhile_imp ha
  · intro a ha
    rw [List.mem_reverse] at ha
    exact List.mem_takeWhile_imp ha

theorem innerOK_iff (inner : Str) :
    innerOK inner = true ↔
      ∃ A B C, inner = A ++ B ++ C ∧ (∀ c ∈ A, isWs c = true) ∧ B ≠ [] ∧
        (∀ c ∈ B, c ≠ '\n') ∧ (∀ c ∈ C, isWs c = true) := by
  unfold innerOK
  constructor
  · intro h
    simp only [Bool.and_eq_true, Bool.not_eq_true'] at h
    obtain ⟨hany, hcont⟩ := h
    obtain ⟨x, hx, hxne⟩ := List.any_eq_true.mp hany
    have hxne : x ≠ '\n' := by simpa using hxne
    have hnl : '\n' ∉ pyStrip inner := by
      intro hmem
      rw [← List.elem_iff] at hmem
      have hmem2 : List.contains (pyStrip inner) '\n' = true := hmem
      rw [hmem2] at hcont
      exact absurd hcont (by decide)
    cases hT : pyStrip inner with
    | nil =>
      have hall : ∀ c ∈ inner, isWs c = true := pyStrip_eq_nil_imp_all_ws hT
      have hDne : List.dropWhile (fun c => c == '\n') inner ≠ [] := by
        intro hD
        have := List.dropWhile_eq_nil_iff.mp hD x hx
        simp at this
        exact hxne this
      cases hD : List.dropWhile (fun c => c == '\n') inner with
      | nil => exact absurd hD hDne
      | cons b C' =>
        refine ⟨inner.takeWhile (fun c => c == '\n'), [b], C', ?_, ?_, by simp, ?_, ?_⟩
        · conv_lhs => rw [← List.takeWhile_append_dropWhile (fun c => c == '\n') inner]
          rw [hD]
          simp
        · intro a ha
          have := List.mem_takeWhile_imp ha
          simp at this
          rw [this]
          decide
        · intro c hc
          simp only [List.mem_singleton] at hc
          subst hc
          have := dropWhile_head_false (fun c => c == '\n') hD
          simpa using this
        · intro c hc
          have hcmem : c ∈ inner := by
            have hsub : (b :: C').Sublist inner := by
              rw [← hD]
              exact List.dropWhile_sublist _
            exact hsub.mem (List.mem_cons_of_mem b hc)
          exact hall c hcmem
    | cons t ts =>
      obtain ⟨A, C, hdec, hA, hC⟩ := pyStrip_decomposition inner
      rw [hT] at hdec
      refine ⟨A, t :: ts, C, hdec, hA, by simp, ?_, hC⟩
      intro c hc hceq
      subst hceq
      rw [hT] at hnl
      exact hnl hc
  · rintro ⟨A, B, C, rfl, hA, hB, hBnl, hC⟩
    simp only [Bool.and_eq_true, Bool.not_eq_true']
    constructor
    · rw [List.any_eq_true]
      cases B with
      | nil => exact absurd rfl hB
      | cons b bs =>
        refine ⟨b, ?_, ?_⟩
        · rw [List.append_assoc]
          exact List.mem_append_right A (List.mem_append_left C (List.mem_cons_self b bs))
        · simpa using hBnl b (List.mem_cons_self b bs)
    · have hstrip : pyStrip (A ++ B ++ C) = pyStrip B := by
        rw [List.append_assoc, pyStrip_append_left_ws A (B ++ C) hA,
          pyStrip_append_right_ws B C hC]
      rw [hstrip]
      cases hcont : (pyStrip B).contains '\n' with
      | false => rfl
      | true =>
        exfalso
        rw [List.elem_iff] at hcont
        exact hBnl '\n' (mem_pyStrip_imp_mem hcont) rfl

theorem markerShape_head {m : Str} (h : MarkerShape m) :
    ∃ c0 m', m = c0 :: m' ∧ isWs c0 = false := by
  cases h with
  | digits ds ws hds hdsd hws hwsw =>
    cases ds with
    | nil => exact absurd rfl hds
    | cons d ds' =>
      exact ⟨d, ds' ++ '.' :: ws, by simp,
        not_ws_of_digit (hdsd d (List.mem_cons_self d ds'))⟩
  | roman rs ws hrs hrsr hws hwsw =>
    cases rs with
    | nil => exact absurd rfl hrs
    | cons r rs' =>
      exact ⟨r, rs' ++ '.' :: ws, by simp,
        not_ws_of_roman (hrsr r (List.mem_cons_self r rs'))⟩
  | glyph g ws hg hws hwsw => exact ⟨g, ws, rfl, not_ws_of_glyph hg⟩
  | bracket A B C hA hB hBnl hC => exact ⟨'[', (A ++ B ++ C) ++ [']'], by simp, by decide⟩

theorem markerLen_cons (c : Char) (cs : Str) :
    markerLen (c :: cs) =
      (if c.isDigit then enumLen Char.isDigit (c :: cs)
       else if isRoman c then enumLen isRoman (c :: cs)
       else if isGlyph c then glyphLen (c :: cs)
       else if c = '[' then (bracketClose (c :: cs)).map (· + 1)
       else none) := rfl

theorem enumLen_append (p : Char → Bool) (ds wsr tail : Str) (c : Char)
    (hds : ds ≠ []) (hdsp : ∀ x ∈ ds, p x = true) (hdot : p '.' = false)
    (hwsr : wsr ≠ []) (hwsw : ∀ x ∈ wsr, isWs x = true) (hc : isWs c = false) :
    enumLen p (ds ++ '.' :: (wsr ++ c :: tail)) = some (ds.length + 1 + wsr.length) := by
  have hcw : countWhile p (ds ++ '.' :: (wsr ++ c :: tail)) = ds.length := by
    rw [countWhile_append_all p ds _ hdsp, countWhile_cons_false p '.' _ hdot]
    simp
  have hdrop : (ds ++ '.' :: (wsr ++ c :: tail)).drop ds.length =
      '.' :: (wsr ++ c :: tail) := List.drop_left ds _
  have hws2 : countWhile isWs (wsr ++ c :: tail) = wsr.length := by
    rw [countWhile_append_all isWs wsr _ hwsw, countWhile_cons_false isWs c _ hc]
    simp
  unfold enumLen
  simp only [hcw, hdrop, hws2]
  rw [if_neg (by simp [hds]), if_neg (by simp [hwsr])]

theorem markerTail_spec {m : Str} (hm : MarkerShape m) (c : Char) (tail : Str)
    (hc : isWs c = false) :
    ∃ n c' cs', markerLen (m ++ c :: tail) = some n ∧
      (m ++ c :: tail).drop n = c' :: cs' ∧ isWs c' = false := by
  cases hm with
  | digits ds ws hds hdsd hws hwsw =>
    refine ⟨(ds ++ '.' :: ws).length, c, tail, ?_, List.drop_left _ _, hc⟩
    obtain ⟨d, ds', rfl⟩ : ∃ d ds', ds = d :: ds' := by
      cases ds with
      | nil => exact absurd rfl hds
      | cons d ds' => exact ⟨d, ds', rfl⟩
    have hd : d.isDigit = true := hdsd d (List.mem_cons_self d ds')
    have hnorm : ((d :: ds') ++ '.' :: ws) ++ c :: tail =
        d :: (ds' ++ '.' :: (ws ++ c :: tail)) := by simp
    rw [hnorm, markerLen_cons, if_pos hd]
    have henum := enumLen_append Char.isDigit (d :: ds') ws tail c hds hdsd
      (by decide) hws hwsw hc
    have hnorm2 : (d :: ds') ++ '.' :: (ws ++ c :: tail) =
        d :: (ds' ++ '.' :: (ws ++ c :: tail)) := by simp
    rw [hnorm2] at henum
    rw [henum]
    simp [Nat.add_assoc, Nat.add_comm, Nat.add_left_comm]
  | roman rs ws hrs hrsr hws hwsw =>
    refine ⟨(rs ++ '.' :: ws).length, c, tail, ?_, List.drop_left _ _, hc⟩
    obtain ⟨r, rs', rfl⟩ : ∃ r rs', rs = r :: rs' := by
      cases rs with
      | nil => exact absurd rfl hrs
      | cons r rs' => exact ⟨r, rs', rfl⟩
    have hr : isRoman r = true := hrsr r (List.mem_cons_self r rs')
    have hnorm : ((r :: rs') ++ '.' :: ws) ++ c :: tail =
        r :: (rs' ++ '.' :: (ws ++ c :: tail)) := by simp
    rw [hnorm, markerLen_cons, not_digit_of_roman hr, if_neg (by simp),
      if_pos hr]
    have henum := enumLen_append isRoman (r :: rs') ws tail c hrs hrsr
      (by decide) hws hwsw hc
    have hnorm2 : (r :: rs') ++ '.' :: (ws ++ c :: tail) =
        r :: (rs' ++ '.' :: (ws ++ c :: tail)) := by simp
    rw [hnorm2] at henum
    rw [henum]
    simp [Nat.add_assoc, Nat.add_comm, Nat.add_left_comm]
  | glyph g ws hg hws hwsw =>
    refine ⟨(g :: ws).length, c, tail, ?_, List.drop_left _ _, hc⟩
    have hnorm : (g :: ws) ++ c :: tail = g :: (ws ++ c :: tail) := by simp
    rw [hnorm, markerLen_cons, not_digit_of_glyph hg, if_neg (by simp),
      not_roman_of_glyph hg, if_neg (by simp), if_pos hg]
    unfold glyphLen
    have hws2 : countWhile isWs (ws ++ c :: tail) = ws.length := by
      rw [countWhile_append_all isWs ws _ hwsw, countWhile_cons_false isWs c _ hc]
      simp
    simp only [hws2]
    rw [if_neg (by simp [hws])]
    simp [Nat.add_comm]
  | bracket A B C hA hB hBnl hC =>
    have hform : ('[' :: (A ++ B ++ C) ++ [']']) ++ c :: tail =
        ('[' :: (A ++ B ++ C)) ++ (']' :: c :: tail) := by simp
    have hks : ∃ k ∈ List.range ((('[' :: (A ++ B ++ C)) ++ (']' :: c :: tail)).length),
        (decide (1 ≤ k) &&
         decide (((('[' :: (A ++ B ++ C)) ++ (']' :: c :: tail)).getD k ' ') = ']') &&
         innerOK ((((('[' :: (A ++ B ++ C)) ++ (']' :: c :: tail)).drop 1).take (k - 1))) &&
         (match (('[' :: (A ++ B ++ C)) ++ (']' :: c :: tail)).drop (k + 1) with
          | [] => false
          | c :: _ => !isWs c)) = true := by
      refine ⟨(A ++ B ++ C).length + 1, ?_, ?_⟩
      · rw [List.mem_range]
        simp
        try omega
      · have hlen : ('[' :: (A ++ B ++ C)).length = (A ++ B ++ C).length + 1 := by
          simp
        have hgd : ((('[' :: (A ++ B ++ C)) ++ (']' :: c :: tail)).getD
            ((A ++ B ++ C).length + 1) ' ') = ']' := by
          rw [← hlen, List.getD_append_right _ _ _ _ (le_refl _)]
          simp
        have hinner : ((('[' :: (A ++ B ++ C)) ++ (']' :: c :: tail)).drop 1).take
            ((A ++ B ++ C).length + 1 - 1) = A ++ B ++ C := by
          simp only [List.cons_append, List.drop_succ_cons, List.drop_zero,
            Nat.add_sub_cancel]
          exact List.take_left _ _
        have hdropk : (('[' :: (A ++ B ++ C)) ++ (']' :: c :: tail)).drop
            ((A ++ B ++ C).length + 1 + 1) = c :: tail := by
          have heq : (('[' :: (A ++ B ++ C)) ++ (']' :: c :: tail)) =
              (('[' :: (A ++ B ++ C)) ++ [']']) ++ (c :: tail) := by simp
          rw [heq]
          have hlen2 : (('[' :: (A ++ B ++ C)) ++ [']']).length =
              (A ++ B ++ C).length + 1 + 1 := by
            simp
            omega
          rw [← hlen2, List.drop_left]
        rw [hgd, hinner, hdropk]
        simp only [Bool.and_eq_true, decide_eq_true_eq]
        refine ⟨⟨⟨by omega, by trivial⟩, ?_⟩, by simp [hc]⟩
        exact innerOK_iff _ |>.mpr ⟨A, B, C, rfl, hA, hB, hBnl, hC⟩
    obtain ⟨k, hkmem, hkpred⟩ := hks
    have hfind : ∃ k', bracketClose (('[' :: (A ++ B ++ C)) ++ (']' :: c :: tail)) =
        some k' := by
      rw [← Option.isSome_iff_exists]
      unfold bracketClose
      rw [List.find?_isSome]
      exact ⟨k, hkmem, hkpred⟩
    obtain ⟨k', hk'⟩ := hfind
    have hpred' := List.find?_some hk'
    simp only [Bool.and_eq_true, decide_eq_true_eq] at hpred'
    obtain ⟨⟨⟨hk'1, hk'close⟩, hk'inner⟩, hk'cont⟩ := hpred'
    refine ⟨k' + 1, ?_⟩
    cases hdropk' : (('[' :: (A ++ B ++ C)) ++ (']' :: c :: tail)).drop (k' + 1) with
    | nil =>
      rw [hdropk'] at hk'cont
      simp at hk'cont
    | cons c' cs' =>
      rw [hdropk'] at hk'cont
      simp only [Bool.not_eq_true'] at hk'cont
      refine ⟨c', cs', ?_, ?_, hk'cont⟩
      · have hnorm : ('[' :: (A ++ B ++ C) ++ [']']) ++ c :: tail =
            '[' :: ((A ++ B ++ C) ++ (']' :: c :: tail)) := by simp
        have hnorm2 : ('[' :: (A ++ B ++ C)) ++ (']' :: c :: tail) =
            '[' :: ((A ++ B ++ C) ++ (']' :: c :: tail)) := by simp
        rw [hnorm, markerLen_cons]
        rw [if_neg (by decide), if_neg (by decide), if_neg (by decide), if_pos rfl]
        rw [← hnorm2, hk']
        rfl
      · rw [hform]
        exact hdropk'

theorem headingShape_isHeading {l : Str} (h : HeadingShape l) :
    lineIsHeading l = true := by
  obtain ⟨lead, marker, c, rest, rfl, hlead, hm, hc⟩ := h
  obtain ⟨c0, m', hm0, hc0⟩ := markerShape_head hm
  obtain ⟨n, c', cs', hml, hdropn, hc'⟩ := markerTail_spec hm c rest hc
  have hw : countWhile isWs (lead ++ marker ++ c :: rest) = lead.length := by
    rw [List.append_assoc, countWhile_append_all isWs lead _ hlead, hm0,
      List.cons_append, countWhile_cons_false isWs c0 _ hc0]
    simp
  have hdrop : (lead ++ marker ++ c :: rest).drop lead.length =
      marker ++ c :: rest := by
    rw [List.append_assoc]
    exact List.drop_left lead _
  unfold lineIsHeading headingMatchLen
  simp only [hw, hdrop, hml, hdropn, hc']
  simp

theorem take_enum_shape (ds tail wsr rest2 : Str) (h : tail = wsr ++ rest2) :
    (ds ++ '.' :: tail).take (ds.length + 1 + wsr.length) = ds ++ '.' :: wsr := by
  subst h
  have hstep : ds.length + 1 + wsr.length = ds.length + (1 + wsr.length) := by omega
  rw [hstep, List.take_append]
  congr 1
  rw [Nat.add_comm 1 _, List.take_succ_cons]
  congr 1
  exact List.take_left _ _

theorem enumLen_shape {p : Char → Bool} {M : Str} {m : Nat}
    (h : enumLen p M = some m) :
    ∃ ds wsr, M.take m = ds ++ '.' :: wsr ∧ ds ≠ [] ∧ (∀ c ∈ ds, p c = true) ∧
      wsr ≠ [] ∧ (∀ c ∈ wsr, isWs c = true) := by
  simp only [enumLen] at h
  split at h
  · exact absurd h (by simp)
  · rename_i hd0
    split at h
    · rename_i tail heq
      split at h
      · exact absurd h (by simp)
      · rename_i hw0
        simp only [Option.some.injEq] at h
        subst h
        obtain ⟨ds, hds⟩ : ∃ x, x = M.takeWhile p := ⟨_, rfl⟩
        obtain ⟨wsr, hwsr⟩ : ∃ x, x = tail.takeWhile isWs := ⟨_, rfl⟩
        have hMdec : M = ds ++ '.' :: tail := by
          rw [hds]
          conv_lhs => rw [← List.takeWhile_append_dropWhile p M]
          congr 1
          rw [← drop_countWhile p M]
          exact heq
        have htdec : tail = wsr ++ tail.dropWhile isWs := by
          rw [hwsr]
          exact (List.takeWhile_append_dropWhile isWs tail).symm
        have hdlen : countWhile p M = ds.length := by
          rw [hds]
          exact countWhile_eq_takeWhile_length p M
        have hwlen : countWhile isWs tail = wsr.length := by
          rw [hwsr]
          exact countWhile_eq_takeWhile_length isWs tail
        refine ⟨ds, wsr, ?_, ?_, ?_, ?_, ?_⟩
        · rw [hdlen, hwlen]
          conv_lhs => rw [hMdec]
          exact take_enum_shape ds tail wsr _ htdec
        · intro hnil
          rw [hnil] at hdlen
          exact hd0 (by simpa using hdlen)
        · intro c hc
          rw [hds] at hc
          exact List.mem_takeWhile_imp hc
        · intro hnil
          rw [hnil] at hwlen
          exact hw0 (by simpa using hwlen)
        · intro c hc
          rw [hwsr] at hc
          exact List.mem_takeWhile_imp hc
    · exact absurd h (by simp)

theorem glyphLen_shape {g : Char} {tail : Str} {m : Nat}
    (h : glyphLen (g :: tail) = some m) :
    ∃ wsr, (g :: tail).take m = g :: wsr ∧ wsr ≠ [] ∧ (∀ c ∈ wsr, isWs c = true) := by
  simp only [glyphLen] at h
  split at h
  · exact absurd h (by simp)
  · rename_i hw0
    simp only [Option.some.injEq] at h
    subst h
    refine ⟨tail.takeWhile isWs, ?_, ?_, fun c hc => List.mem_takeWhile_imp hc⟩
    · rw [Nat.add_comm 1 _, List.take_succ_cons, take_countWhile]
    · intro hnil
      rw [countWhile_eq_takeWhile_length, hnil] at hw0
      exact hw0 rfl

theorem bracketClose_shape {tailM : Str} {k : Nat}
    (h : bracketClose ('[' :: tailM) = some k) :
    ∃ A B C, ('[' :: tailM).take (k + 1) = '[' :: (A ++ B ++ C) ++ [']'] ∧
      (∀ c ∈ A, isWs c = true) ∧ B ≠ [] ∧ (∀ c ∈ B, c ≠ '\n') ∧
      (∀ c ∈ C, isWs c = true) := by
  unfold bracketClose at h
  have hmem := List.mem_of_find?_eq_some h
  have hpred := List.find?_some h
  rw [List.mem_range] at hmem
  simp only [Bool.and_eq_true, decide_eq_true_eq] at hpred
  obtain ⟨⟨⟨hk1, hkclose⟩, hkinner⟩, -⟩ := hpred
  obtain ⟨k', rfl⟩ : ∃ k', k = k' + 1 := ⟨k - 1, by omega⟩
  have hklen : k' + 1 ≤ tailM.length := by
    simp only [List.length_cons] at hmem
    omega
  have hk'lt : k' < tailM.length := by omega
  have hgd : tailM.getD k' ' ' = ']' := by
    have : ('[' :: tailM).getD (k' + 1) ' ' = tailM.getD k' ' ' := rfl
    rw [← this]
    exact hkclose
  have hget : tailM[k']? = some ']' := by
    rw [List.getD_eq_getElem?_getD] at hgd
    cases hg : tailM[k']? with
    | none =>
      rw [List.getElem?_eq_none_iff] at hg
      omega
    | some x =>
      rw [hg] at hgd
      simp only [Option.getD_some] at hgd
      rw [hgd]
  have hinner : ((('[' :: tailM).drop 1).take (k' + 1 - 1)) = tailM.take k' := by
    simp
  rw [hinner] at hkinner
  obtain ⟨A, B, C, hdec, hA, hB, hBnl, hC⟩ := (innerOK_iff _).mp hkinner
  refine ⟨A, B, C, ?_, hA, hB, hBnl, hC⟩
  rw [List.take_succ_cons, List.take_succ, hget, ← hdec]
  simp

theorem markerLen_shape {M : Str} {m : Nat} (h : markerLen M = some m) :
    MarkerShape (M.take m) := by
  cases M with
  | nil => simp [markerLen] at h
  | cons c0 tail =>
    rw [markerLen_cons] at h
    by_cases h1 : c0.isDigit
    · rw [if_pos h1] at h
      obtain ⟨ds, wsr, htake, hds, hdsp, hwsr, hwsw⟩ := enumLen_shape h
      rw [htake]
      exact MarkerShape.digits ds wsr hds hdsp hwsr hwsw
    · rw [if_neg h1] at h
      by_cases h2 : isRoman c0
      · rw [if_pos h2] at h
        obtain ⟨rs, wsr, htake, hrs, hrsp, hwsr, hwsw⟩ := enumLen_shape h
        rw [htake]
        exact MarkerShape.roman rs wsr hrs hrsp hwsr hwsw
      · rw [if_neg h2] at h
        by_cases h3 : isGlyph c0
        · rw [if_pos h3] at h
          obtain ⟨wsr, htake, hwsr, hwsw⟩ := glyphLen_shape h
          rw [htake]
          exact MarkerShape.glyph c0 wsr h3 hwsr hwsw
        · rw [if_neg h3] at h
          by_cases h4 : c0 = '['
          · rw [if_pos h4] at h
            subst h4
            obtain ⟨k, hk, rfl⟩ : ∃ k, bracketClose ('[' :: tail) = some k ∧ m = k + 1 := by
              cases hb : bracketClose ('[' :: tail) with
              | none =>
                rw [hb] at h
                simp at h
              | some k =>
                rw [hb] at h
                simp only [Option.map_some'] at h
                exact ⟨k, rfl, (Option.some.injEq _ _ ▸ h).symm⟩
            obtain ⟨A, B, C, htake, hA, hB, hBnl, hC⟩ := bracketClose_shape hk
            rw [htake]
            exact MarkerShape.bracket A B C hA hB hBnl hC
          · rw [if_neg h4] at h
            simp at h

theorem isHeading_headingShape {l : Str} (h : lineIsHeading l = true) :
    HeadingShape l := by
  unfold lineIsHeading at h
  rw [Option.isSome_iff_exists] at h
  obtain ⟨n, hn⟩ := h
  simp only [headingMatchLen] at hn
  split at hn
  · exact absurd hn (by simp)
  · rename_i mlen heq
    split at hn
    · exact absurd hn (by simp)
    · rename_i c cs heq2
      split at hn
      · exact absurd hn (by simp)
      · rename_i hcws
        rw [drop_countWhile] at heq heq2
        have hshape := markerLen_shape heq
        have hM : l.dropWhile isWs = (l.dropWhile isWs).take mlen ++ c :: cs := by
          conv_lhs => rw [← List.take_append_drop mlen (l.dropWhile isWs)]
          rw [heq2]
        refine ⟨l.takeWhile isWs, (l.dropWhile isWs).take mlen, c, cs, ?_,
          fun x hx => List.mem_takeWhile_imp hx, hshape, by simpa using hcws⟩
        conv_lhs => rw [← List.takeWhile_append_dropWhile isWs l, hM]
        rw [List.append_assoc]

/-- **C8.**  `_HEADING_RE` classifies a line as a heading exactly when it
consists of optional leading whitespace, then an enumerator (digits followed
by a dot and whitespace, or Roman numerals followed by a dot and whitespace),
one of the fixed marker glyphs followed by whitespace, or a bracket-delimited
label, followed immediately by non-whitespace content.  In particular the
line `1. 서론` is classified as a heading and the line
`오늘 가격은 올랐다.` is not. -/
theorem c8_heading_pattern_characterization :
    (∀ l : Str, lineIsHeading l = true ↔ HeadingShape l) ∧
    lineIsHeading (toStr "1. 서론") = true ∧
    lineIsHeading (toStr "오늘 가격은 올랐다.") = false :=
  ⟨fun _ => ⟨isHeading_headingShape, headingShape_isHeading⟩, by decide, by decide⟩
